import Mathlib

/-!
Verification of the socket chat server against its specification.

The development shallowly embeds the parts of the code the claims are
about:

* `shared/protocol/framing.py` — the newline-delimited JSON codec
  (`encode_msg` / `decode_msg`).  JSON values are modelled by `Json`;
  numbers are modelled as integers (the envelopes the protocol exchanges
  carry integer timestamps and status codes; floats are outside the
  modelled domain).  The serializer mirrors
  `json.dumps(msg, ensure_ascii=False, separators=(",", ":"))` and the
  parser mirrors `json.loads` on that domain (the parser is lenient on
  leading zeros of numerals and does not combine surrogate escape
  pairs; both differences are invisible to every statement below).
* `server/core/server.py` — the per-frame pipeline of
  `SocketServer._handle_client` (decode, version gate, schema gate,
  touch, dispatch, error conversion).
* `server/storage/sqlite_store.py` — the offline queue, the friend
  tables and the room tables, each as a small functional state.
* `server/services/message_service.py`, `room_service.py`,
  `voice_service.py`, `auth_service.py` — the handlers the claims
  name, as state-passing functions; network writes are recorded as
  trace elements instead of socket effects.

Python truthiness conventions: an absent or empty string field is
modelled as `Option String` being `none` or `some ""`, both of which the
embedded guards treat as missing, exactly as `if not x:` does.
-/

namespace ChatSpec

/-- JSON values carried by the control channel.  Object fields keep
their textual order; strings are lists of characters. -/
inductive Json where
  | null : Json
  | bool (b : Bool) : Json
  | num (n : Int) : Json
  | str (s : List Char) : Json
  | arr (elems : List Json) : Json
  | obj (fields : List (List Char × Json)) : Json

/-- `MAX_PAYLOAD_SIZE` from `shared/protocol/constants.py`: 256 KiB. -/
def MAX_PAYLOAD_SIZE : Nat := 256 * 1024

/-- Lowercase hexadecimal digit, as produced by Python's json escapes. -/
def hexDigitChar (n : Nat) : Char :=
  if n < 10 then Char.ofNat (48 + n) else Char.ofNat (87 + n)

/-- Decimal digit character. -/
def digitChar (n : Nat) : Char := Char.ofNat (48 + n)

/-- How `json.dumps(..., ensure_ascii=False)` renders one character of a
string: quote and backslash are escaped, control characters below 0x20
get their short escape or a `\u00XX` escape, everything else is verbatim. -/
def escChar (c : Char) : List Char :=
  if c = '"' then ['\\', '"']
  else if c = '\\' then ['\\', '\\']
  else if c = Char.ofNat 8 then ['\\', 'b']
  else if c = Char.ofNat 9 then ['\\', 't']
  else if c = Char.ofNat 10 then ['\\', 'n']
  else if c = Char.ofNat 12 then ['\\', 'f']
  else if c = Char.ofNat 13 then ['\\', 'r']
  else if c.toNat < 32 then
    ['\\', 'u', '0', '0', hexDigitChar (c.toNat / 16), hexDigitChar (c.toNat % 16)]
  else [c]

/-- Escape a whole string body. -/
def escString : List Char → List Char
  | [] => []
  | c :: cs => escChar c ++ escString cs

/-- Decimal digits of a natural number (fuelled; `natChars` supplies
enough fuel). -/
def natCharsFuel : Nat → Nat → List Char
  | 0, _ => []
  | f + 1, n => if n < 10 then [digitChar n]
      else natCharsFuel f (n / 10) ++ [digitChar (n % 10)]

/-- Decimal rendering of a natural number. -/
def natChars (n : Nat) : List Char := natCharsFuel (n + 1) n

/-- Decimal rendering of an integer, as `repr` renders Python ints. -/
def intChars (n : Int) : List Char :=
  if n < 0 then '-' :: natChars n.natAbs else natChars n.natAbs

mutual
/-- Compact serialization — the text `json.dumps(msg, ensure_ascii=False,
separators=(",", ":"))` produces. -/
def serVal : Json → List Char
  | .null => ['n', 'u', 'l', 'l']
  | .bool false => ['f', 'a', 'l', 's', 'e']
  | .bool true => ['t', 'r', 'u', 'e']
  | .num n => intChars n
  | .str s => '"' :: escString s ++ ['"']
  | .arr [] => ['[', ']']
  | .arr (x :: xs) => '[' :: (serVal x ++ serElemsRest xs) ++ [']']
  | .obj [] => ['\x7b', '\x7d']
  | .obj (kv :: kvs) => '\x7b' :: (serMember kv ++ serMembersRest kvs) ++ ['\x7d']

/-- Serialization of the second and later array elements. -/
def serElemsRest : List Json → List Char
  | [] => []
  | x :: xs => ',' :: serVal x ++ serElemsRest xs

/-- Serialization of one object member. -/
def serMember : List Char × Json → List Char
  | (k, v) => '"' :: escString k ++ '"' :: ':' :: serVal v

/-- Serialization of the second and later object members. -/
def serMembersRest : List (List Char × Json) → List Char
  | [] => []
  | kv :: kvs => ',' :: serMember kv ++ serMembersRest kvs
end

/-- UTF-8 byte length of a character sequence (`len(json_str.encode("utf-8"))`). -/
def utf8Len : List Char → Nat
  | [] => 0
  | c :: cs => c.utf8Size + utf8Len cs

/-- The status/code pair a `ProtocolError` carries
(`shared/protocol/errors.py`; the human-readable message is not
modelled). -/
structure ProtocolError where
  status : Nat
  code : Option Nat
  deriving DecidableEq

/-- `encode_msg` from `shared/protocol/framing.py`: serialize, reject
frames whose UTF-8 byte length exceeds 256 KiB with `BAD_REQUEST`,
append the `0x0A` delimiter. -/
def encode_msg (msg : Json) : Except ProtocolError (List Char) :=
  let data := serVal msg
  if MAX_PAYLOAD_SIZE < utf8Len data then Except.error ⟨400, none⟩
  else Except.ok (data ++ ['\n'])

/-- Whitespace characters `json.loads` skips between tokens. -/
def isWsChar (c : Char) : Bool :=
  decide (c = ' ' ∨ c = Char.ofNat 9 ∨ c = Char.ofNat 10 ∨ c = Char.ofNat 13)

/-- Skip leading whitespace. -/
def skipWs : List Char → List Char
  | [] => []
  | c :: cs => if isWsChar c then skipWs cs else c :: cs

/-- Decimal digit test. -/
def isDigitChar (c : Char) : Bool := decide ('0' ≤ c ∧ c ≤ '9')

/-- Value of a decimal digit character. -/
def digVal (c : Char) : Nat := c.toNat - 48

/-- Consume a run of decimal digits, accumulating their value. -/
def parseDigits : List Char → Nat → Nat × List Char
  | [], acc => (acc, [])
  | c :: cs, acc =>
      if isDigitChar c then parseDigits cs (acc * 10 + digVal c) else (acc, c :: cs)

/-- Parse an integer numeral (an optional minus sign followed by at
least one digit). -/
def parseNum (s : List Char) : Option (Int × List Char) :=
  match s with
  | [] => none
  | c :: cs =>
      if c = '-' then
        match cs with
        | [] => none
        | c2 :: _ =>
            if isDigitChar c2 then
              some (-(((parseDigits cs 0).1 : Int)), (parseDigits cs 0).2)
            else none
      else if isDigitChar c then
        some (((parseDigits (c :: cs) 0).1 : Int), (parseDigits (c :: cs) 0).2)
      else none

/-- Value of a hexadecimal digit character. -/
def hexVal (c : Char) : Option Nat :=
  if isDigitChar c then some (c.toNat - 48)
  else if decide ('a' ≤ c ∧ c ≤ 'f') then some (c.toNat - 87)
  else if decide ('A' ≤ c ∧ c ≤ 'F') then some (c.toNat - 55)
  else none

/-- Resolution of a single-character escape sequence. -/
def unescapeChar (c : Char) : Option Char :=
  if c = '"' then some '"'
  else if c = '\\' then some '\\'
  else if c = '/' then some '/'
  else if c = 'b' then some (Char.ofNat 8)
  else if c = 'f' then some (Char.ofNat 12)
  else if c = 'n' then some (Char.ofNat 10)
  else if c = 'r' then some (Char.ofNat 13)
  else if c = 't' then some (Char.ofNat 9)
  else none

/-- Parse the body of a JSON string after its opening quote, returning
the decoded characters and the remainder after the closing quote.
Fuelled; one unit of fuel consumes at least one input character. -/
def parseStrF : Nat → List Char → Option (List Char × List Char)
  | 0, _ => none
  | _ + 1, [] => none
  | f + 1, c :: cs =>
      if c = '"' then some ([], cs)
      else if c = '\\' then
        match cs with
        | [] => none
        | e :: cs2 =>
            if e = 'u' then
              match cs2 with
              | h1 :: h2 :: h3 :: h4 :: cs3 =>
                  match hexVal h1, hexVal h2, hexVal h3, hexVal h4 with
                  | some a, some b, some x, some d =>
                      match parseStrF f cs3 with
                      | some (s, r) =>
                          some (Char.ofNat (((a * 16 + b) * 16 + x) * 16 + d) :: s, r)
                      | none => none
                  | _, _, _, _ => none
              | _ => none
            else
              match unescapeChar e with
              | some c2 =>
                  match parseStrF f cs2 with
                  | some (s, r) => some (c2 :: s, r)
                  | none => none
              | none => none
      else if c.toNat < 32 then none
      else
        match parseStrF f cs with
        | some (s, r) => some (c :: s, r)
        | none => none

mutual
/-- Parse one JSON value (fuelled recursive descent). -/
def parseValF : Nat → List Char → Option (Json × List Char)
  | 0, _ => none
  | f + 1, s =>
      match skipWs s with
      | [] => none
      | c :: cs =>
          if c = 'n' then
            match cs with
            | 'u' :: 'l' :: 'l' :: r => some (.null, r)
            | _ => none
          else if c = 't' then
            match cs with
            | 'r' :: 'u' :: 'e' :: r => some (.bool true, r)
            | _ => none
          else if c = 'f' then
            match cs with
            | 'a' :: 'l' :: 's' :: 'e' :: r => some (.bool false, r)
            | _ => none
          else if c = '"' then
            match parseStrF (cs.length + 1) cs with
            | some (body, r) => some (.str body, r)
            | none => none
          else if c = '[' then
            match skipWs cs with
            | [] => none
            | c2 :: r =>
                if c2 = ']' then some (.arr [], r)
                else
                  match parseElemsF f (c2 :: r) with
                  | some (xs, r2) => some (.arr xs, r2)
                  | none => none
          else if c = '\x7b' then
            match skipWs cs with
            | [] => none
            | c2 :: r =>
                if c2 = '\x7d' then some (.obj [], r)
                else
                  match parseMembersF f (c2 :: r) with
                  | some (fs, r2) => some (.obj fs, r2)
                  | none => none
          else
            match parseNum (c :: cs) with
            | some (n, r) => some (.num n, r)
            | none => none

/-- Parse the elements of a non-empty array up to the closing bracket. -/
def parseElemsF : Nat → List Char → Option (List Json × List Char)
  | 0, _ => none
  | f + 1, s =>
      match parseValF f s with
      | some (v, r) =>
          match skipWs r with
          | [] => none
          | c2 :: r2 =>
              if c2 = ']' then some ([v], r2)
              else if c2 = ',' then
                match parseElemsF f r2 with
                | some (vs, r3) => some (v :: vs, r3)
                | none => none
              else none
      | none => none

/-- Parse the members of a non-empty object up to the closing brace. -/
def parseMembersF : Nat → List Char → Option (List (List Char × Json) × List Char)
  | 0, _ => none
  | f + 1, s =>
      match skipWs s with
      | [] => none
      | c1 :: cs =>
          if c1 = '"' then
            match parseStrF (cs.length + 1) cs with
            | some (k, r) =>
                match skipWs r with
                | [] => none
                | c2 :: r2 =>
                    if c2 = ':' then
                      match parseValF f r2 with
                      | some (v, r3) =>
                          match skipWs r3 with
                          | [] => none
                          | c3 :: r4 =>
                              if c3 = '\x7d' then some ([(k, v)], r4)
                              else if c3 = ',' then
                                match parseMembersF f r4 with
                                | some (fs, r5) => some ((k, v) :: fs, r5)
                                | none => none
                              else none
                      | none => none
                    else none
            | none => none
          else none
end

/-- `json.loads`: parse a complete JSON document, allowing surrounding
whitespace and rejecting trailing garbage. -/
def jparse (s : List Char) : Option Json :=
  match parseValF (2 * s.length + 2) s with
  | some (v, r) => if skipWs r = [] then some v else none
  | none => none

/-- A character sequence that does not continue a numeral: empty, or
starting with a non-digit. -/
def noDigitStart : List Char → Prop
  | [] => True
  | c :: _ => isDigitChar c = false

mutual
/-- Fuel sufficient for `parseValF` to parse this value's serialization. -/
def fuelNeed : Json → Nat
  | .null => 1
  | .bool _ => 1
  | .num _ => 1
  | .str _ => 1
  | .arr l => 1 + fuelElems l
  | .obj l => 1 + fuelMembers l

/-- Fuel sufficient for `parseElemsF` on serialized array elements. -/
def fuelElems : List Json → Nat
  | [] => 1
  | x :: xs => 1 + fuelNeed x + fuelElems xs

/-- Fuel sufficient for `parseMembersF` on serialized object members. -/
def fuelMembers : List (List Char × Json) → Nat
  | [] => 1
  | kv :: kvs => 1 + fuelNeed kv.2 + fuelMembers kvs
end

/-- `bytes.rstrip(b"\n")`: drop every trailing newline. -/
def dropTrailingNewlines (s : List Char) : List Char :=
  ((s.reverse).dropWhile (fun c => c = '\n')).reverse

/-- `decode_msg` from `shared/protocol/framing.py`: strip the delimiter
and parse; parse failures raise `BAD_REQUEST`.  No size bound is
applied on this path. -/
def decode_msg (s : List Char) : Except ProtocolError Json :=
  match jparse (dropTrailingNewlines s) with
  | some v => Except.ok v
  | none => Except.error ⟨400, none⟩

/-! ### Per-frame server pipeline (`server/core/server.py`, `shared/protocol/validator.py`) -/

/-- Envelope field keys. -/
def headersKey : List Char := "headers".toList

/-- `headers.version` key. -/
def versionKey : List Char := "version".toList

/-- `command` key. -/
def commandKey : List Char := "command".toList

/-- `id` key. -/
def idKey : List Char := "id".toList

/-- `timestamp` key. -/
def timestampKey : List Char := "timestamp".toList

/-- `type` key. -/
def typeKey : List Char := "type".toList

/-- `payload` key. -/
def payloadKey : List Char := "payload".toList

/-- `status` key. -/
def statusKey : List Char := "status".toList

/-- `error_code` key. -/
def errorCodeKey : List Char := "error_code".toList

/-- The declared protocol version `DEFAULT_VERSION = "1.0"`. -/
def versionChars : List Char := "1.0".toList

/-- Dictionary lookup on parsed object fields; a repeated key keeps its
last value, as building a Python dict does. -/
def jlookup : List (List Char × Json) → List Char → Option Json
  | [], _ => none
  | (k, v) :: rest, key =>
      match jlookup rest key with
      | some r => some r
      | none => if k = key then some v else none

/-- `msg.get(key)` on an object; `none` on other values. -/
def getField (j : Json) (key : List Char) : Option Json :=
  match j with
  | .obj fs => jlookup fs key
  | _ => none

/-- Python truthiness (`bool(x)`) of a JSON value: `None`, `False`,
`0`, `""`, `[]` and an empty dict are falsy, everything else truthy. -/
def jTruthy : Json → Bool
  | .null => false
  | .bool b => b
  | .num n => decide (n ≠ 0)
  | .str [] => false
  | .str (_ :: _) => true
  | .arr [] => false
  | .arr (_ :: _) => true
  | .obj [] => false
  | .obj (_ :: _) => true

/-- Python hashability of a JSON value: lists and dicts are unhashable,
so passing one to the `lru_cache`-wrapped `load_schema` raises
`TypeError`; every other JSON value hashes. -/
def jHashable : Json → Bool
  | .arr _ => false
  | .obj _ => false
  | _ => true

/-- `validate_version(msg.get("headers"))`: `none` when the code raises
`AttributeError` — a truthy non-dict headers value has no `.get` —
`some true` when `(headers or {}).get("version", "0.0")` equals
`"1.0"`, and `some false` when the gate raises the 426
`ProtocolError`.  A falsy or absent headers value is replaced by `{}`
and so reads version `"0.0"`; a non-string version value compares
unequal. -/
def versionGate (msg : Json) : Option Bool :=
  match getField msg headersKey with
  | none => some false
  | some h =>
      if jTruthy h then
        match h with
        | .obj hf =>
            match jlookup hf versionKey with
            | some (.str v) => some (decide (v = versionChars))
            | some _ => some false
            | none => some false
        | _ => none
      else some false

/-- The command string of an envelope (`message.get("command")`),
empty for a missing or non-string command. -/
def commandChars (msg : Json) : List Char :=
  match getField msg commandKey with
  | some (.str c) => c
  | _ => []

/-- `ERROR_COMMAND_MAP` from `server/core/server.py`: on an error
response, three request commands are replaced by their ack command. -/
def mappedCommand (req : Json) : Json :=
  match getField req commandKey with
  | some (.str c) =>
      if c = "auth/login".toList then .str "auth/login_ack".toList
      else if c = "auth/refresh".toList then .str "auth/refresh_ack".toList
      else if c = "message/send".toList then .str "message/ack".toList
      else .str c
  | some v => v
  | none => .null

/-- `(req.get("headers") or {}).copy()` for envelope-shaped requests. -/
def headersOrEmpty (req : Json) : List (List Char × Json) :=
  match getField req headersKey with
  | some (.obj fs) => fs
  | _ => []

/-- `headers.setdefault("version", DEFAULT_VERSION)`. -/
def setdefaultVersion (fs : List (List Char × Json)) : List (List Char × Json) :=
  if (jlookup fs versionKey).isSome then fs
  else fs ++ [(versionKey, .str versionChars)]

/-- `ProtocolError.to_payload()`: status and error code (the
human-readable `error_message` text is not modelled). -/
def errorPayload (e : ProtocolError) : Json :=
  .obj [(statusKey, .num e.status),
        (errorCodeKey, match e.code with | some c => .num (c : Int) | none => .null)]

/-- `_error_response` from `server/core/server.py`. -/
def errorResponse (req : Json) (e : ProtocolError) : Json :=
  .obj [(idKey, (getField req idKey).getD .null),
        (typeKey, .str "response".toList),
        (timestampKey, (getField req timestampKey).getD .null),
        (commandKey, mappedCommand req),
        (headersKey, .obj (setdefaultVersion (headersOrEmpty req))),
        (payloadKey, errorPayload e)]

/-- Dispatch step of the connection loop: touch the context, look the
command up in the router, run the handler if one is registered
(unknown commands are silently ignored). -/
def dispatchMsg {σ : Type} (handlers : List Char → Option (Json → σ → Option Json × σ))
    (touch : σ → σ) (msg : Json) (st : σ) : List Json × σ :=
  let st1 := touch st
  match handlers (commandChars msg) with
  | none => ([], st1)
  | some h =>
      match h msg st1 with
      | (some r, st2) => ([r], st2)
      | (none, st2) => ([], st2)

/-- The per-frame pipeline of `SocketServer._handle_client` after a
frame has been decoded, in the code's order:
`message.get("command", "")` (an `AttributeError` on a non-dict frame),
`load_schema(...)` (a `TypeError` on an unhashable command value),
`validate_msg` (version gate, then the command's schema when one is
registered; `load_schema` is permissive for commands outside
`SCHEMA_REGISTRY`), then touch and dispatch.  A raised `ProtocolError`
becomes exactly one error response; `none` models an exception that is
not a `ProtocolError`: it escapes to the loop's outer handler, which
sends nothing and closes the connection.  The list in the result names
the frames written back. -/
def processMsg {σ : Type} (schemaOf : List Char → Option (Json → Bool))
    (handlers : List Char → Option (Json → σ → Option Json × σ))
    (touch : σ → σ) (msg : Json) (st : σ) : Option (List Json × σ) :=
  match msg with
  | .obj fields =>
      if jHashable ((jlookup fields commandKey).getD (.str [])) then
        match versionGate (.obj fields) with
        | none => none
        | some false => some ([errorResponse (.obj fields) ⟨426, some 1002⟩], st)
        | some true =>
            match schemaOf (commandChars (.obj fields)) with
            | some check =>
                if check (.obj fields) then
                  some (dispatchMsg handlers touch (.obj fields) st)
                else some ([errorResponse (.obj fields) ⟨400, some 1004⟩], st)
            | none => some (dispatchMsg handlers touch (.obj fields) st)
      else none
  | _ => none

/-- One iteration of the read loop on raw frame bytes: decode, then
process; a decode failure is a `ProtocolError` converted into an error
response echoing the empty message, and `none` again models an
uncaught exception dropping the connection. -/
def handleFrame {σ : Type} (schemaOf : List Char → Option (Json → Bool))
    (handlers : List Char → Option (Json → σ → Option Json × σ))
    (touch : σ → σ) (raw : List Char) (st : σ) : Option (List Json × σ) :=
  match decode_msg raw with
  | .error e => some ([errorResponse (.obj []) e], st)
  | .ok msg => processMsg schemaOf handlers touch msg st

/-! ### Offline queue (`SQLiteStore.enqueue_offline_message` /
`consume_offline_messages`).  The payload type is a parameter: the
table itself stores serialized JSON (`α := Json`), while the message
service's fan-out is stated over its event records. -/

/-- One `offline_queue` row: auto-increment id, user, serialized event. -/
structure QRow (α : Type) where
  rowId : Nat
  userId : String
  message : α

/-- The `offline_queue` table and its auto-increment counter. -/
structure QueueState (α : Type) where
  rows : List (QRow α)
  nextId : Nat

/-- A fresh database. -/
def emptyQueue {α : Type} : QueueState α := ⟨[], 1⟩

/-- `enqueue_offline_message`: insert a row with the next auto id. -/
def enqueue_offline_message {α : Type} (u : String) (m : α) (s : QueueState α) :
    QueueState α :=
  ⟨s.rows ++ [⟨s.nextId, u, m⟩], s.nextId + 1⟩

/-- `consume_offline_messages`: select the user's rows ordered by id
ascending, delete exactly the selected ids in the same transaction,
return the messages. -/
def consume_offline_messages {α : Type} (u : String) (s : QueueState α) :
    List α × QueueState α :=
  let sel := List.insertionSort (fun a b : QRow α => a.rowId ≤ b.rowId)
    (s.rows.filter (fun r => r.userId = u))
  let ids := sel.map (fun r => r.rowId)
  (sel.map (fun r => r.message),
   ⟨s.rows.filter (fun r => ¬ r.rowId ∈ ids), s.nextId⟩)

/-- The messages currently queued for a user, in table (insertion)
order. -/
def userMessages {α : Type} (u : String) (s : QueueState α) : List α :=
  (s.rows.filter (fun r => r.userId = u)).map (fun r => r.message)

/-- Well-formedness the sqlite schema guarantees: auto-increment ids
are strictly increasing along the table and below the counter. -/
def QueueWF {α : Type} (s : QueueState α) : Prop :=
  s.rows.Pairwise (fun a b => a.rowId < b.rowId) ∧ ∀ r ∈ s.rows, r.rowId < s.nextId

/-! ### Friend requests and friendships
(`SQLiteStore.accept_friend_request`, `FriendService.handle_accept`) -/

/-- One `friend_requests` row (timestamps are not modelled). -/
structure FriendRequest where
  reqId : Nat
  fromUser : String
  toUser : String
  status : String
  deriving DecidableEq

/-- The `friend_requests` and `friends` tables. -/
structure FriendState where
  requests : List FriendRequest
  friends : List (String × String)
  deriving DecidableEq

/-- `get_pending_friend_requests`: incoming rows still `pending`
(the `created_at DESC` ordering is irrelevant to an id lookup). -/
def get_pending_friend_requests (u : String) (s : FriendState) : List FriendRequest :=
  s.requests.filter (fun r => r.toUser = u ∧ r.status = "pending")

/-- `UPDATE friend_requests SET status = ? WHERE id = ?`. -/
def setRequestStatus (rid : Nat) (st : String) (l : List FriendRequest) :
    List FriendRequest :=
  l.map (fun r => if r.reqId = rid then { r with status := st } else r)

/-- Lexicographic code-point comparison — Python's `<` on strings and
sqlite's default text collation for the ascii identifiers involved. -/
def charListLt : List Char → List Char → Bool
  | [], [] => false
  | [], _ :: _ => true
  | _ :: _, [] => false
  | a :: as, b :: bs => if a < b then true else if b < a then false else charListLt as bs

/-- `<` on user ids. -/
def pyStrLt (a b : String) : Bool := charListLt a.toList b.toList

/-- Canonical ordering of a friendship pair (`user1 < user2`). -/
def canonPairOf (a b : String) : String × String :=
  if pyStrLt a b then (a, b) else (b, a)

/-- `SQLiteStore.accept_friend_request`: look the request up by id
*and* `status = 'pending'`; absent that, report failure.  Otherwise
insert the canonical friendship row unless the insert would violate
the primary key or the `user1 < user2` check (the `IntegrityError`
branch), flip the status to `accepted`, and report success. -/
def accept_friend_request (rid : Nat) (s : FriendState) : Bool × FriendState :=
  match s.requests.find? (fun r => r.reqId = rid ∧ r.status = "pending") with
  | none => (false, s)
  | some r =>
      let p := canonPairOf r.fromUser r.toUser
      let friends' :=
        if pyStrLt p.1 p.2 = true ∧ ¬ p ∈ s.friends then s.friends ++ [p] else s.friends
      (true, ⟨setRequestStatus rid "accepted" s.requests, friends'⟩)

/-- `SQLiteStore.are_friends`. -/
def are_friends (a b : String) (s : FriendState) : Bool :=
  (canonPairOf a b) ∈ s.friends

/-- Outcome of `FriendService.handle_accept`: a success ack carrying
the requester's id, or an error status. -/
inductive FriendAcceptResult where
  | ok (friendId : String)
  | err (status : Nat)
  deriving DecidableEq

/-- `FriendService.handle_accept`: authentication guard, missing-id
guard (`if not request_id` also rejects 0), lookup of the request among
the caller's pending requests (`NOT_FOUND` otherwise), then the store
accept. -/
def handle_accept (userId : Option String) (requestId : Option Nat) (s : FriendState) :
    FriendAcceptResult × FriendState :=
  match userId with
  | none => (.err 401, s)
  | some uid =>
      if uid = "" then (.err 401, s)
      else
        match requestId with
        | none => (.err 400, s)
        | some rid =>
            if rid = 0 then (.err 400, s)
            else
              match (get_pending_friend_requests uid s).find? (fun r => r.reqId = rid) with
              | none => (.err 404, s)
              | some req =>
                  match accept_friend_request rid s with
                  | (true, s1) => (.ok req.fromUser, s1)
                  | (false, s1) => (.err 500, s1)

/-- The status of the request row with the given id. -/
def requestStatus (rid : Nat) (s : FriendState) : Option String :=
  (s.requests.find? (fun r => r.reqId = rid)).map (fun r => r.status)

/-! ### Registration (`AuthService.handle_register`) -/

/-- The store tables `handle_register` can read or write: users
(username, password hash), sessions (token, username), presence
(username, state). -/
structure AuthState where
  users : List (String × String)
  sessions : List (String × String)
  presence : List (String × String)

/-- The per-connection context fields authentication binds. -/
structure ConnCtx where
  userId : Option String
  sessionToken : Option String
  deriving DecidableEq

/-- The `_login_response` payload fields relevant to registration. -/
structure RegisterResp where
  status : Nat
  token : String
  userId : String
  expiresIn : Nat
  errorCode : Option Nat
  deriving DecidableEq

/-- `SQLiteStore.user_exists`. -/
def user_exists (u : String) (s : AuthState) : Bool :=
  (s.users.map Prod.fst).contains u

/-- `AuthService.handle_register`: missing credentials raise
`BAD_REQUEST`; an existing username gets `CONFLICT`/`USER_EXISTS`
(the `create_user` race branch collapses onto the same answer in this
sequential model); otherwise the user row is created and the ack
carries status 200, the new user id and an empty token, leaving
sessions, presence and the connection context untouched. -/
def handle_register (username password : Option String) (s : AuthState) (ctx : ConnCtx) :
    Except ProtocolError RegisterResp × AuthState × ConnCtx :=
  match username, password with
  | some un, some pw =>
      if un = "" ∨ pw = "" then (.error ⟨400, none⟩, s, ctx)
      else if user_exists un s then
        (.ok ⟨409, "", "", 0, some 1006⟩, s, ctx)
      else
        (.ok ⟨200, "", un, 0, none⟩, { s with users := s.users ++ [(un, pw)] }, ctx)
  | _, _ => (.error ⟨400, none⟩, s, ctx)

/-! ### Message fan-out (`MessageService.handle_send`,
`_deliver_to_user`, `_deliver_to_room`).  The live registry is a
parameter `live : String → Bool` abstracting
`ConnectionManager.send_to_user`'s delivered/not-delivered answer, the
room tables a parameter `rooms` abstracting `room_exists` +
`list_room_members`.  Wire writes are recorded in a delivery trace. -/

/-- The `message/send` target field. -/
inductive SendTarget where
  | user (id : Option String)
  | room (id : Option String)
  | other

/-- The fields of a `message/send` payload the handler reads. -/
structure SendPayload where
  conversationId : Option String
  target : SendTarget
  content : Json

/-- One `messages` row. -/
structure MsgRow where
  messageId : Nat
  conversationId : String
  senderId : String
  content : Json

/-- The `message/event` payload fanned out to recipients (the envelope
wrapping — event id, timestamp, headers — is not modelled; delivery
and enqueueing both carry this same record, as the code passes the one
`event` dict to both). -/
structure MessageEvent where
  conversationId : String
  senderId : String
  content : Json
  messageId : Nat

/-- State touched by `handle_send`: the `messages` table, the offline
queue, and a counter standing in for `uuid4` freshness of message ids. -/
structure MsgState where
  messages : List MsgRow
  queue : QueueState MessageEvent
  nextId : Nat

/-- One recorded delivery effect. -/
inductive Delivery where
  | live (user : String) (ev : MessageEvent)
  | queued (user : String) (ev : MessageEvent)

/-- Whether a delivery concerns the given user. -/
def Delivery.forUser (u : String) : Delivery → Bool
  | .live u' _ => u' = u
  | .queued u' _ => u' = u

/-- `MessageService._deliver_to_user`: a missing or empty recipient id
does nothing; otherwise a live send, and an offline enqueue exactly
when the registry reports not-delivered. -/
def deliver_to_user (live : String → Bool) (uid : Option String) (ev : MessageEvent)
    (q : QueueState MessageEvent) : QueueState MessageEvent × List Delivery :=
  match uid with
  | none => (q, [])
  | some u =>
      if u = "" then (q, [])
      else if live u then (q, [.live u ev])
      else (enqueue_offline_message u ev q, [.queued u ev])

/-- The member loop of `_deliver_to_room`: each member other than the
sender goes through `_deliver_to_user`. -/
def deliverList (live : String → Bool) (ms : List String) (sender : String)
    (ev : MessageEvent) (q : QueueState MessageEvent) :
    QueueState MessageEvent × List Delivery :=
  match ms with
  | [] => (q, [])
  | m :: rest =>
      if m = sender then deliverList live rest sender ev q
      else
        let step1 := deliver_to_user live (some m) ev q
        let step2 := deliverList live rest sender ev step1.1
        (step2.1, step1.2 ++ step2.2)

/-- `MessageService.handle_send`: authentication and conversation-id
guards, then the message row is stored (and the ack's message id
fixed) *before* any target handling; a user target is delivered
directly-or-enqueued; a room target is checked for existence and
sender membership (errors raised there leave the stored row behind)
and then fanned out to every other member; other targets get no
fan-out.  The `Except` value is the ack's message id or the raised
error. -/
def handle_send (live : String → Bool) (rooms : String → Option (List String))
    (authUser : Option String) (p : SendPayload) (s : MsgState) :
    Except ProtocolError Nat × MsgState × List Delivery :=
  match authUser with
  | none => (.error ⟨401, none⟩, s, [])
  | some sender =>
      match p.conversationId with
      | none => (.error ⟨400, none⟩, s, [])
      | some convo =>
          if convo = "" then (.error ⟨400, none⟩, s, [])
          else
            let mid := s.nextId
            let row : MsgRow := ⟨mid, convo, sender, p.content⟩
            let s1 : MsgState := ⟨s.messages ++ [row], s.queue, s.nextId + 1⟩
            let ev : MessageEvent := ⟨convo, sender, p.content, mid⟩
            match p.target with
            | .user uid =>
                let d := deliver_to_user live uid ev s1.queue
                (.ok mid, ⟨s1.messages, d.1, s1.nextId⟩, d.2)
            | .room rid =>
                match rid with
                | none => (.error ⟨400, none⟩, s1, [])
                | some r =>
                    if r = "" then (.error ⟨400, none⟩, s1, [])
                    else
                      match rooms r with
                      | none => (.error ⟨404, none⟩, s1, [])
                      | some members =>
                          if sender ∈ members then
                            let d := deliverList live members sender ev s1.queue
                            (.ok mid, ⟨s1.messages, d.1, s1.nextId⟩, d.2)
                          else (.error ⟨403, none⟩, s1, [])
            | .other => (.ok mid, s1, [])

/-- The intended recipients of a send, as the claim describes them: the
target user, or every room member other than the sender. -/
def intendedRecipients (rooms : String → Option (List String)) (sender : String) :
    SendTarget → List String
  | .user none => []
  | .user (some u) => if u = "" then [] else [u]
  | .room none => []
  | .room (some r) =>
      if r = "" then []
      else
        match rooms r with
        | some members => members.filter (fun m => ¬ m = sender)
        | none => []
  | .other => []

/-! ### Rooms (`RoomService` + `SQLiteStore` room tables) -/

/-- One `rooms` row (timestamps and metadata are not modelled). -/
structure Room where
  owner : String
  encrypted : Bool
  passwordHash : Option String
  deriving DecidableEq

/-- The `rooms` and `room_members` tables. -/
structure RoomsState where
  rooms : String → Option Room
  members : List (String × String)

/-- A fresh database. -/
def emptyRooms : RoomsState := ⟨fun _ => none, []⟩

/-- `SQLiteStore.list_room_members` (`ORDER BY user_id ASC`). -/
def list_room_members (rid : String) (s : RoomsState) : List String :=
  List.insertionSort (fun a b : String => a ≤ b)
    ((s.members.filter (fun p => p.1 = rid)).map Prod.snd)

/-- A handler outcome: a response with a status, or an uncaught
non-protocol exception (`add_member`'s `ValueError` on a duplicate
member escapes `handle_join`). -/
inductive RoomResp where
  | status (n : Nat)
  | raised
  deriving DecidableEq

/-- The room operations of the claim, each tagged with the
authenticated requester. -/
inductive RoomOp where
  | create (user roomId : String) (encrypted : Bool) (password : Option String)
  | join (user roomId : String) (password : Option String)
  | leave (user roomId : String)
  | kick (user roomId target : String)
  | delete (user roomId : String)

/-- Python truthiness of an optional string field. -/
def strFalsy : Option String → Bool
  | none => true
  | some s => s = ""

/-- `RoomService.handle_create` + `SQLiteStore.create_room`: guards,
conflict on an existing id, then one transaction inserting the room
row and (`INSERT OR IGNORE`) the owner membership. -/
def room_create (hashFn : String → String) (u rid : String) (encrypted : Bool)
    (password : Option String) (s : RoomsState) : RoomResp × RoomsState :=
  if rid = "" then (.status 400, s)
  else if encrypted ∧ strFalsy password then (.status 400, s)
  else
    match s.rooms rid with
    | some _ => (.status 409, s)
    | none =>
        let ph := match password with
          | some pw => if pw = "" then none else some (hashFn pw)
          | none => none
        let room : Room := ⟨u, encrypted, ph⟩
        let mem := if (rid, u) ∈ s.members then s.members else s.members ++ [(rid, u)]
        (.status 200, ⟨fun x => if x = rid then some room else s.rooms x, mem⟩)

/-- `RoomService.handle_join`: guards, password check for encrypted
rooms, then `add_member`, whose `IntegrityError → ValueError` on an
already-present membership row escapes the handler uncaught. -/
def room_join (hashFn : String → String) (u rid : String) (password : Option String)
    (s : RoomsState) : RoomResp × RoomsState :=
  if rid = "" then (.status 400, s)
  else
    match s.rooms rid with
    | none => (.status 404, s)
    | some room =>
        if room.encrypted ∧ strFalsy password then (.status 403, s)
        else if room.encrypted ∧ room.passwordHash ≠ (password.map hashFn) then
          (.status 403, s)
        else if (rid, u) ∈ s.members then (.raised, s)
        else (.status 200, ⟨s.rooms, s.members ++ [(rid, u)]⟩)

/-- `RoomService.handle_leave`: removes the requester's membership row
unconditionally — the owner included. -/
def room_leave (u rid : String) (s : RoomsState) : RoomResp × RoomsState :=
  if rid = "" then (.status 400, s)
  else
    match s.rooms rid with
    | none => (.status 404, s)
    | some _ => (.status 200, ⟨s.rooms, s.members.filter (fun p => ¬ p = (rid, u))⟩)

/-- `RoomService.handle_kick`: owner-only, cannot kick oneself. -/
def room_kick (u rid target : String) (s : RoomsState) : RoomResp × RoomsState :=
  if rid = "" ∨ target = "" then (.status 400, s)
  else
    match s.rooms rid with
    | none => (.status 404, s)
    | some room =>
        if ¬ room.owner = u then (.status 403, s)
        else if target = u then (.status 400, s)
        else (.status 200, ⟨s.rooms, s.members.filter (fun p => ¬ p = (rid, target))⟩)

/-- `RoomService.handle_delete` + `SQLiteStore.delete_room`: owner-only;
removes the room row and every membership row of the room. -/
def room_delete (u rid : String) (s : RoomsState) : RoomResp × RoomsState :=
  if rid = "" then (.status 400, s)
  else
    match s.rooms rid with
    | none => (.status 404, s)
    | some room =>
        if ¬ room.owner = u then (.status 403, s)
        else
          (.status 200,
           ⟨fun x => if x = rid then none else s.rooms x,
            s.members.filter (fun p => ¬ p.1 = rid)⟩)

/-- One room operation applied to the state. -/
def roomApply (hashFn : String → String) (s : RoomsState) : RoomOp → RoomResp × RoomsState
  | .create u rid enc pw => room_create hashFn u rid enc pw s
  | .join u rid pw => room_join hashFn u rid pw s
  | .leave u rid => room_leave u rid s
  | .kick u rid t => room_kick u rid t s
  | .delete u rid => room_delete u rid s

/-- The state after a room operation. -/
def roomStep (hashFn : String → String) (s : RoomsState) (op : RoomOp) : RoomsState :=
  (roomApply hashFn s op).2

/-- Whether a room operation is an owner leaving their own room — the
one shape of step the amended invariant must exclude. -/
def ownerLeave (s : RoomsState) : RoomOp → Prop
  | .leave u rid =>
      match s.rooms rid with
      | some room => room.owner = u
      | none => False
  | _ => False

/-- Room states reachable from a fresh database by operations in which
no owner leaves their own room. -/
inductive RoomsReach (hashFn : String → String) : RoomsState → Prop where
  | init : RoomsReach hashFn emptyRooms
  | step {s : RoomsState} {op : RoomOp} : RoomsReach hashFn s → ¬ ownerLeave s op →
      RoomsReach hashFn (roomStep hashFn s op)

/-! ### Voice calls (`server/services/voice_service.py`) -/

/-- `VoiceCall.status`. -/
inductive CallStatus where
  | ringing
  | connected
  | ended
  deriving DecidableEq

/-- The in-memory `VoiceCall` record (timestamps are not modelled). -/
structure VCall where
  initiator : String
  callType : String
  targetType : String
  targetId : String
  status : CallStatus
  participants : List String
  deriving DecidableEq

/-- `VoiceService.active_calls` and `VoiceService.user_to_call`. -/
structure VoiceState where
  active_calls : String → Option VCall
  user_to_call : String → Option String

/-- A fresh service. -/
def emptyVoice : VoiceState := ⟨fun _ => none, fun _ => none⟩

/-- `VoiceCall.add_participant`: insert into the participant set, and
flip a ringing call to connected. -/
def addParticipant (u : String) (c : VCall) : VCall :=
  let ps := if u ∈ c.participants then c.participants else c.participants ++ [u]
  if c.status = .ringing then { c with participants := ps, status := .connected }
  else { c with participants := ps }

/-- `VoiceService._cleanup_call`: pop the call and every mapping of its
(current) participants. -/
def cleanup_call (cid : String) (s : VoiceState) : VoiceState :=
  match s.active_calls cid with
  | none => s
  | some c =>
      ⟨fun x => if x = cid then none else s.active_calls x,
       fun x => if x ∈ c.participants then none else s.user_to_call x⟩

/-- `VoiceService.handle_call`: target guard, already-in-a-call guard,
then a fresh ringing call holding the initiator; the call id is the
frame id the client sent. -/
def voice_call (u cid callType targetType targetId : String) (s : VoiceState) :
    Nat × VoiceState :=
  if targetType = "" ∨ targetId = "" then (400, s)
  else if (s.user_to_call u).isSome then (409, s)
  else
    let c : VCall := ⟨u, callType, targetType, targetId, .ringing, [u]⟩
    (200,
     ⟨fun x => if x = cid then some c else s.active_calls x,
      fun x => if x = u then some cid else s.user_to_call x⟩)

/-- `VoiceService.handle_answer`: not-found and status guards, then the
caller joins the call and is mapped to it — with no check that they
were not already in another call. -/
def voice_answer (u cid : String) (s : VoiceState) : Nat × VoiceState :=
  match s.active_calls cid with
  | none => (404, s)
  | some c =>
      if c.callType = "direct" ∧ c.status ≠ .ringing then (409, s)
      else if c.callType = "group" ∧ c.status = .ended then (409, s)
      else
        (200,
         ⟨fun x => if x = cid then some (addParticipant u c) else s.active_calls x,
          fun x => if x = u then some cid else s.user_to_call x⟩)

/-- `VoiceService.handle_reject`: direct calls end and are cleaned up;
group calls are untouched. -/
def voice_reject (u cid : String) (s : VoiceState) : Nat × VoiceState :=
  match s.active_calls cid with
  | none => (404, s)
  | some c =>
      if c.callType = "direct" then (200, cleanup_call cid s)
      else (200, s)

/-- `VoiceService.handle_end`: participant-only; the leaver is removed
from the call and unmapped; a group call with members left keeps
going, otherwise the call is ended and cleaned up. -/
def voice_end (u cid : String) (s : VoiceState) : Nat × VoiceState :=
  match s.active_calls cid with
  | none => (404, s)
  | some c =>
      if ¬ u ∈ c.participants then (403, s)
      else
        let ps := c.participants.erase u
        let s1 : VoiceState :=
          ⟨fun x => if x = cid then some { c with participants := ps } else s.active_calls x,
           fun x => if x = u then none else s.user_to_call x⟩
        if c.callType = "group" ∧ ps ≠ [] then (200, s1)
        else (200, cleanup_call cid s1)

/-- `VoiceService.user_disconnected`: synthesize an end for the call the
user's mapping names, if any. -/
def voice_disconnect (u : String) (s : VoiceState) : VoiceState :=
  match s.user_to_call u with
  | none => s
  | some cid =>
      match s.active_calls cid with
      | none => s
      | some _ => (voice_end u cid s).2

/-- The voice operations of the claim. -/
inductive VOp where
  | call (user callId callType targetType targetId : String)
  | answer (user callId : String)
  | reject (user callId : String)
  | endOp (user callId : String)
  | disconnect (user : String)

/-- The state after a voice operation. -/
def vstep (s : VoiceState) : VOp → VoiceState
  | .call u cid ct tt tid => (voice_call u cid ct tt tid s).2
  | .answer u cid => (voice_answer u cid s).2
  | .reject u cid => (voice_reject u cid s).2
  | .endOp u cid => (voice_end u cid s).2
  | .disconnect u => voice_disconnect u s

/-- The well-behaved operations of the amended claim: a `voice/call`
must carry a fresh (uuid-like) frame id, and a `voice/answer` must come
from a user not currently in a call — the two preconditions the
handlers do not themselves enforce. -/
def vokOp (s : VoiceState) : VOp → Prop
  | .call _ cid _ _ _ => s.active_calls cid = none
  | .answer u _ => s.user_to_call u = none
  | _ => True

/-- Voice states reachable from the fresh service by well-behaved
operations. -/
inductive VReach : VoiceState → Prop where
  | init : VReach emptyVoice
  | step {s : VoiceState} {op : VOp} : VReach s → vokOp s op → VReach (vstep s op)

/-- The inductive invariant tying the two voice maps together: stored
calls are never `ended` and have duplicate-free participant sets, and
the user index points to exactly the calls a user participates in. -/
def voiceInv (s : VoiceState) : Prop :=
  (∀ c call, s.active_calls c = some call →
    call.status ≠ .ended ∧ call.participants.Nodup) ∧
  (∀ u c, s.user_to_call u = some c ↔
    ∃ call, s.active_calls c = some call ∧ u ∈ call.participants)

/-! ## Theorems -/

/-- C7: `auth/register` with a free username creates exactly the user
row: the ack carries status 200, the created user id and an empty
token, while sessions, presence and the connection binding stay
untouched; with a taken username the ack is `CONFLICT`(409) with
`USER_EXISTS`(1006) and nothing changes at all. -/
theorem register_creates_user_only (username password : String) (s : AuthState)
    (ctx : ConnCtx) (hu : username ≠ "") (hp : password ≠ "") :
    (user_exists username s = false →
      handle_register (some username) (some password) s ctx =
        (.ok ⟨200, "", username, 0, none⟩,
         ⟨s.users ++ [(username, password)], s.sessions, s.presence⟩, ctx)) ∧
    (user_exists username s = true →
      handle_register (some username) (some password) s ctx =
        (.ok ⟨409, "", "", 0, some 1006⟩, s, ctx)) := by
  unfold handle_register
  simp only [hu, hp, false_or, if_false, or_self]
  constructor
  · intro h
    simp [h]
  · intro h
    simp [h]

/-- Witness for C7 at a concrete store. -/
theorem register_creates_user_only_witness :
    handle_register (some "bob") (some "pw") ⟨[("alice", "h")], [], []⟩ ⟨none, none⟩ =
      (.ok ⟨200, "", "bob", 0, none⟩,
       ⟨[("alice", "h"), ("bob", "pw")], [], []⟩, ⟨none, none⟩) :=
  (register_creates_user_only "bob" "pw" ⟨[("alice", "h")], [], []⟩ ⟨none, none⟩
    (by decide) (by decide)).1 (by decide)

/-- C5 (amended): after decoding, a frame that is a JSON object whose
command value is hashable and whose headers value survives
`(headers or {}).get` — absent, falsy, or a dict — while not declaring
version `"1.0"` produces exactly one error response carrying status
`UPGRADE_REQUIRED`(426) and error code `VERSION_MISMATCH`(1002),
dispatches no handler — the result is the same for every router and
schema registry — and leaves the server state untouched (the context
is not even touched).  The claim's universal form fails on the crash
paths: an unhashable command value raises `TypeError` inside
`load_schema` before the gate, and a truthy non-dict headers value
raises `AttributeError` inside `validate_version`; neither is a
`ProtocolError`, so the server sends no response and drops the
connection (second and third conjuncts; `version_gate_crash_cex`). -/
theorem version_gate_rejects {σ : Type} (schemaOf : List Char → Option (Json → Bool))
    (handlers : List Char → Option (Json → σ → Option Json × σ)) (touch : σ → σ)
    (fields : List (List Char × Json)) (st : σ) :
    (jHashable ((jlookup fields commandKey).getD (.str [])) = true →
      versionGate (.obj fields) = some false →
      processMsg schemaOf handlers touch (.obj fields) st =
        some ([errorResponse (.obj fields) ⟨426, some 1002⟩], st)) ∧
    (jHashable ((jlookup fields commandKey).getD (.str [])) = false →
      processMsg schemaOf handlers touch (.obj fields) st = none) ∧
    (versionGate (.obj fields) = none →
      processMsg schemaOf handlers touch (.obj fields) st = none) ∧
    getField (errorPayload ⟨426, some 1002⟩) statusKey = some (.num 426) ∧
    getField (errorPayload ⟨426, some 1002⟩) errorCodeKey = some (.num 1002) := by
  refine ⟨?_, ?_, ?_, rfl, rfl⟩
  · intro hc hv
    simp [processMsg, hc, hv]
  · intro hc
    simp [processMsg, hc]
  · intro hv
    by_cases hc : jHashable ((jlookup fields commandKey).getD (.str [])) = true
    · simp [processMsg, hc, hv]
    · simp [processMsg, hc]

/-- Witness for C5: the 426 branch at a frame whose headers declare
version "2.0", and the no-response branch at a frame whose command is
a list, both against a router that would answer and a schema that
would reject. -/
theorem version_gate_rejects_witness :
    processMsg (σ := Nat) (fun _ => some (fun _ => false))
      (fun _ => some (fun m st => (some m, st + 1))) Nat.succ
      (Json.obj [(headersKey, Json.obj [(versionKey, Json.str ['2', '.', '0'])])]) 0 =
      some ([errorResponse
        (Json.obj [(headersKey, Json.obj [(versionKey, Json.str ['2', '.', '0'])])])
        ⟨426, some 1002⟩], 0) ∧
    processMsg (σ := Nat) (fun _ => some (fun _ => false))
      (fun _ => some (fun m st => (some m, st + 1))) Nat.succ
      (Json.obj [(commandKey, Json.arr [])]) 0 = none :=
  ⟨(version_gate_rejects (fun _ => some (fun _ => false))
      (fun _ => some (fun m st => (some m, st + 1))) Nat.succ
      [(headersKey, Json.obj [(versionKey, Json.str ['2', '.', '0'])])] 0).1
      (by rfl) (by rfl),
   (version_gate_rejects (fun _ => some (fun _ => false))
      (fun _ => some (fun m st => (some m, st + 1))) Nat.succ
      [(commandKey, Json.arr [])] 0).2.1 (by rfl)⟩

/-- C5 counterexample: two frames inside the original claim's scope —
neither declares headers version "1.0" — on which the server sends no
response at all.  With `"headers": "x"`, `(headers or {}).get` raises
`AttributeError` inside the version gate; with an array-valued command
and headers version "2.0", the `lru_cache`-wrapped `load_schema`
raises `TypeError` before the gate ever runs.  Both exceptions bypass
the `ProtocolError` handler: no error response is written and the
connection is closed, refuting "exactly one error response". -/
theorem version_gate_crash_cex :
    versionGate (Json.obj [(headersKey, Json.str ['x'])]) = none ∧
    processMsg (σ := Nat) (fun _ => some (fun _ => false))
      (fun _ => some (fun m st => (some m, st + 1))) Nat.succ
      (Json.obj [(headersKey, Json.str ['x'])]) 0 = none ∧
    versionGate (Json.obj [(commandKey, Json.arr [Json.num 1]),
      (headersKey, Json.obj [(versionKey, Json.str ['2', '.', '0'])])]) = some false ∧
    processMsg (σ := Nat) (fun _ => some (fun _ => false))
      (fun _ => some (fun m st => (some m, st + 1))) Nat.succ
      (Json.obj [(commandKey, Json.arr [Json.num 1]),
        (headersKey, Json.obj [(versionKey, Json.str ['2', '.', '0'])])]) 0 = none :=
  ⟨rfl, rfl, rfl, rfl⟩

/-- C10: an authenticated room send stores the message row before the
room-existence and membership checks, so a `NOT_FOUND`(404) or
`FORBIDDEN`(403) outcome still leaves the freshly inserted row in the
messages table (and no delivery happened). -/
theorem send_room_error_keeps_message_row (live : String → Bool)
    (rooms : String → Option (List String)) (sender convo rid : String)
    (content : Json) (s : MsgState) (hconvo : convo ≠ "") (hrid : rid ≠ "") :
    (rooms rid = none →
      handle_send live rooms (some sender) ⟨some convo, .room (some rid), content⟩ s =
        (.error ⟨404, none⟩,
         ⟨s.messages ++ [⟨s.nextId, convo, sender, content⟩], s.queue, s.nextId + 1⟩, [])) ∧
    (∀ members, rooms rid = some members → ¬ sender ∈ members →
      handle_send live rooms (some sender) ⟨some convo, .room (some rid), content⟩ s =
        (.error ⟨403, none⟩,
         ⟨s.messages ++ [⟨s.nextId, convo, sender, content⟩], s.queue, s.nextId + 1⟩, [])) := by
  constructor
  · intro h
    simp [handle_send, hconvo, hrid, h]
  · intro members h hmem
    simp [handle_send, hconvo, hrid, h, hmem]

/-- Witness for C10: a send into a room the store does not have. -/
theorem send_room_error_keeps_message_row_witness :
    handle_send (fun _ => true) (fun _ => none) (some "alice")
      ⟨some "alice|r1", .room (some "r1"), Json.null⟩ ⟨[], emptyQueue, 7⟩ =
      (.error ⟨404, none⟩,
       ⟨[⟨7, "alice|r1", "alice", Json.null⟩], emptyQueue, 8⟩, []) :=
  (send_room_error_keeps_message_row (fun _ => true) (fun _ => none) "alice" "alice|r1"
    "r1" Json.null ⟨[], emptyQueue, 7⟩ (by decide) (by decide)).1 rfl

/-- Two rows of a strictly id-increasing table with equal ids coincide. -/
theorem rowId_inj {α : Type} {l : List (QRow α)}
    (h : l.Pairwise (fun a b => a.rowId < b.rowId)) :
    ∀ a ∈ l, ∀ b ∈ l, a.rowId = b.rowId → a = b := by
  induction l with
  | nil => intro a ha; simp at ha
  | cons x xs ih =>
    intro a ha b hb hf
    rcases List.mem_cons.1 ha with rfl | ha'
    · rcases List.mem_cons.1 hb with rfl | hb'
      · rfl
      · exact absurd hf (by have := (List.pairwise_cons.1 h).1 b hb'; omega)
    · rcases List.mem_cons.1 hb with rfl | hb'
      · exact absurd hf (by have := (List.pairwise_cons.1 h).1 a ha'; omega)
      · exact ih (List.pairwise_cons.1 h).2 a ha' b hb' hf

/-- C2: on a well-formed table, one `consume_offline_messages` call
returns the user's queued events in insertion (ascending auto-id)
order — all of them — and deletes exactly those rows, so the immediately
following call returns the empty list; and each enqueue appends one
event to the user's pending list.  In particular no partial drain can
occur: what is returned and what is deleted are the same rows. -/
theorem offline_consume_drains_all {α : Type} (u : String) (s : QueueState α)
    (h : QueueWF s) :
    (consume_offline_messages u s).1 = userMessages u s ∧
    (consume_offline_messages u s).2.rows = s.rows.filter (fun r => ¬ r.userId = u) ∧
    QueueWF (consume_offline_messages u s).2 ∧
    (consume_offline_messages u (consume_offline_messages u s).2).1 = [] ∧
    (∀ (m : α) (v : String),
      userMessages u (enqueue_offline_message v m s) =
        userMessages u s ++ (if v = u then [m] else []) ∧
      QueueWF (enqueue_offline_message v m s)) := by
  obtain ⟨hpw, hub⟩ := h
  have hfil : (s.rows.filter (fun r => r.userId = u)).Pairwise
      (fun a b => a.rowId < b.rowId) := hpw.filter _
  have hsorted : List.insertionSort (fun a b : QRow α => a.rowId ≤ b.rowId)
      (s.rows.filter (fun r => r.userId = u)) =
      s.rows.filter (fun r => r.userId = u) :=
    List.Sorted.insertionSort_eq (hfil.imp fun hlt => Nat.le_of_lt hlt)
  have hdel : (s.rows.filter (fun r =>
      ¬ r.rowId ∈ (s.rows.filter (fun r => r.userId = u)).map (fun r => r.rowId))) =
      s.rows.filter (fun r => ¬ r.userId = u) := by
    apply List.filter_congr
    intro r hr
    simp only [decide_eq_decide, List.mem_map, List.mem_filter]
    constructor
    · intro hni hru
      exact hni ⟨r, ⟨hr, by simp [hru]⟩, rfl⟩
    · rintro hnu ⟨r', ⟨hr', hu'⟩, hid⟩
      have : r' = r := rowId_inj hpw r' hr' r hr hid
      subst this
      exact hnu (by simpa using hu')
  have hconsume : consume_offline_messages u s =
      (userMessages u s, ⟨s.rows.filter (fun r => ¬ r.userId = u), s.nextId⟩) := by
    simp only [consume_offline_messages, hsorted, hdel, userMessages]
  refine ⟨by rw [hconsume], by rw [hconsume], ?_, ?_, ?_⟩
  · rw [hconsume]
    refine ⟨hpw.filter _, ?_⟩
    intro r hr
    exact hub r (List.mem_of_mem_filter hr)
  · rw [hconsume]
    simp only [consume_offline_messages, List.filter_filter]
    have : (List.filter (fun r => decide (r.userId = u) && decide (¬ r.userId = u))
        s.rows) = [] := by
      apply List.filter_eq_nil_iff.2
      intro r _
      by_cases hru : r.userId = u <;> simp [hru]
    simp [this]
  · intro m v
    constructor
    · simp only [userMessages, enqueue_offline_message, List.filter_append, List.map_append]
      by_cases hv : v = u <;> simp [hv]
    · constructor
      · rw [enqueue_offline_message]
        apply List.pairwise_append.2
        refine ⟨hpw, List.pairwise_singleton _ _, ?_⟩
        intro a ha b hb
        simp only [List.mem_singleton] at hb
        subst hb
        exact hub a ha
      · intro r hr
        rcases List.mem_append.1 hr with hr' | hr'
        · have := hub r hr'
          simp only [enqueue_offline_message]
          omega
        · simp only [List.mem_singleton] at hr'
          subst hr'
          simp [enqueue_offline_message]

/-- Witness for C2: three queued events, two of them for the user. -/
theorem offline_consume_drains_all_witness :
    (consume_offline_messages "u"
      (⟨[⟨1, "u", 10⟩, ⟨2, "v", 20⟩, ⟨3, "u", 30⟩], 4⟩ : QueueState Nat)).1 = [10, 30] ∧
    (consume_offline_messages "u" (consume_offline_messages "u"
      (⟨[⟨1, "u", 10⟩, ⟨2, "v", 20⟩, ⟨3, "u", 30⟩], 4⟩ : QueueState Nat)).2).1 = [] := by
  have h := offline_consume_drains_all (α := Nat) "u"
    ⟨[⟨1, "u", 10⟩, ⟨2, "v", 20⟩, ⟨3, "u", 30⟩], 4⟩ ⟨by decide, by decide⟩
  exact ⟨h.1.trans (by decide), h.2.2.2.1⟩

/-- In a table whose ids are distinct, `find?` by a predicate that pins
the id down finds exactly the known row. -/
theorem find?_unique_id {l : List FriendRequest} {r : FriendRequest}
    {p : FriendRequest → Bool} (hnd : (l.map (fun q => q.reqId)).Nodup)
    (hmem : r ∈ l) (hpr : p r = true)
    (himp : ∀ q, p q = true → q.reqId = r.reqId) :
    l.find? p = some r := by
  induction l with
  | nil => simp at hmem
  | cons x xs ih =>
    simp only [List.map_cons, List.nodup_cons] at hnd
    rcases List.mem_cons.1 hmem with rfl | hmem'
    · exact List.find?_cons_of_pos _ hpr
    · have hx : ¬ p x = true := by
        intro h
        exact hnd.1 (himp x h ▸ List.mem_map.2 ⟨r, hmem', rfl⟩)
      rw [List.find?_cons_of_neg _ hx]
      exact ih hnd.2 hmem'

/-- After `setRequestStatus`, the row with the updated id is found with
the new status. -/
theorem find?_setRequestStatus {l : List FriendRequest} {r : FriendRequest}
    (hnd : (l.map (fun q => q.reqId)).Nodup) (hmem : r ∈ l) (st : String) :
    (setRequestStatus r.reqId st l).find? (fun q => q.reqId = r.reqId) =
      some { r with status := st } := by
  induction l with
  | nil => simp at hmem
  | cons x xs ih =>
    simp only [List.map_cons, List.nodup_cons] at hnd
    rcases List.mem_cons.1 hmem with rfl | hmem'
    · simp [setRequestStatus, List.find?]
    · have hx : ¬ x.reqId = r.reqId := by
        intro h
        exact hnd.1 (h ▸ List.mem_map.2 ⟨r, hmem', rfl⟩)
      simp only [setRequestStatus, List.map_cons, if_neg hx]
      rw [List.find?_cons_of_neg _ (by simp [hx])]
      exact ih hnd.2 hmem'

/-- Every row of the updated table that carries the updated id carries
the new status. -/
theorem setRequestStatus_status {l : List FriendRequest} {rid : Nat} {st : String} :
    ∀ q ∈ setRequestStatus rid st l, q.reqId = rid → q.status = st := by
  intro q hq hqid
  obtain ⟨r0, _, hr0⟩ := List.mem_map.1 hq
  by_cases h : r0.reqId = rid
  · rw [if_pos h] at hr0
    rw [← hr0]
  · rw [if_neg h] at hr0
    exact absurd (hr0 ▸ hqid) h

/-- `charListLt` is total on distinct lists. -/
theorem charListLt_total : ∀ {x y : List Char}, charListLt x y = false → x ≠ y →
    charListLt y x = true
  | [], [], _, hne => absurd rfl hne
  | [], _ :: _, h, _ => by simp [charListLt] at h
  | _ :: _, [], _, _ => by simp [charListLt]
  | a :: as, b :: bs, h, hne => by
    simp only [charListLt] at h ⊢
    rcases lt_trichotomy a b with hab | hab | hab
    · simp [hab] at h
    · subst hab
      simp only [if_neg (lt_irrefl a)] at h ⊢
      exact charListLt_total h (by intro hh; exact hne (by rw [hh]))
    · simp [hab, not_lt_of_gt hab]

/-- C3 (amended): accepting a pending request makes the two users
friends and flips the row to `accepted`; but a second accept of the
same id is not a no-op success — the store lookup (which requires
`status = 'pending'`) fails, and the service answers `NOT_FOUND`(404),
leaving the state unchanged. -/
theorem friend_accept_then_second_not_found (s : FriendState) (r : FriendRequest)
    (hmem : r ∈ s.requests)
    (hnd : (s.requests.map (fun q => q.reqId)).Nodup)
    (hpend : r.status = "pending")
    (hne : r.fromUser ≠ r.toUser)
    (htu : r.toUser ≠ "")
    (hid : r.reqId ≠ 0) :
    ∃ s1, handle_accept (some r.toUser) (some r.reqId) s = (.ok r.fromUser, s1) ∧
      are_friends r.fromUser r.toUser s1 = true ∧
      requestStatus r.reqId s1 = some "accepted" ∧
      handle_accept (some r.toUser) (some r.reqId) s1 = (.err 404, s1) := by
  have hndp : ((get_pending_friend_requests r.toUser s).map (fun q => q.reqId)).Nodup :=
    hnd.sublist (List.Sublist.map _ (List.filter_sublist _))
  have hpfind : (get_pending_friend_requests r.toUser s).find?
      (fun q => q.reqId = r.reqId) = some r := by
    apply find?_unique_id hndp
    · simp [get_pending_friend_requests, List.mem_filter, hmem, hpend]
    · simp
    · intro q hq
      simpa using hq
  have hsfind : s.requests.find? (fun q => q.reqId = r.reqId ∧ q.status = "pending") =
      some r := by
    apply find?_unique_id hnd hmem
    · simp [hpend]
    · intro q hq
      simp only [Bool.decide_and, Bool.and_eq_true, decide_eq_true_eq] at hq
      exact hq.1
  have hcanon : pyStrLt (canonPairOf r.fromUser r.toUser).1
      (canonPairOf r.fromUser r.toUser).2 = true := by
    rw [canonPairOf]
    by_cases hab : pyStrLt r.fromUser r.toUser = true
    · simp [hab]
    · have hab' : pyStrLt r.fromUser r.toUser = false := by simpa using hab
      rw [if_neg (by simp [hab'])]
      exact charListLt_total hab' (fun hh => hne (String.toList_inj.1 hh))
  set p := canonPairOf r.fromUser r.toUser with hp
  set friends1 := if pyStrLt p.1 p.2 = true ∧ ¬ p ∈ s.friends then s.friends ++ [p]
    else s.friends with hfr
  set s1 : FriendState := ⟨setRequestStatus r.reqId "accepted" s.requests, friends1⟩
    with hs1
  have haccept : accept_friend_request r.reqId s = (true, s1) := by
    rw [accept_friend_request, hsfind]
  have hmemp : p ∈ friends1 := by
    rw [hfr]
    by_cases hin : p ∈ s.friends
    · simp [hin]
    · simp [hcanon, hin]
  refine ⟨s1, ?_, ?_, ?_, ?_⟩
  · rw [handle_accept]
    simp only [if_neg htu, if_neg hid]
    rw [hpfind, haccept]
  · rw [are_friends, ← hp]
    simpa using hmemp
  · rw [requestStatus]
    have := find?_setRequestStatus hnd hmem "accepted"
    rw [hs1]
    simp only [this]
    rfl
  · have hnone : (get_pending_friend_requests r.toUser s1).find?
        (fun q => q.reqId = r.reqId) = none := by
      apply List.find?_eq_none.2
      intro q hq
      simp only [decide_eq_true_eq]
      intro hqid
      have hq2 : q ∈ s1.requests ∧ q.status = "pending" := by
        have := List.mem_filter.1 hq
        refine ⟨this.1, ?_⟩
        have := this.2
        simp only [Bool.decide_and, Bool.and_eq_true, decide_eq_true_eq] at this
        exact this.2
      have : q.status = "accepted" := setRequestStatus_status q hq2.1 hqid
      rw [this] at hq2
      simp at hq2
    rw [handle_accept]
    simp only [if_neg htu, if_neg hid]
    rw [hnone]

/-- Witness for C3's amended claim at a one-request store. -/
theorem friend_accept_then_second_not_found_witness :
    handle_accept (some "b") (some 1) ⟨[⟨1, "a", "b", "pending"⟩], []⟩ =
      (.ok "a", ⟨[⟨1, "a", "b", "accepted"⟩], [("a", "b")]⟩) ∧
    are_friends "a" "b" ⟨[⟨1, "a", "b", "accepted"⟩], [("a", "b")]⟩ = true ∧
    handle_accept (some "b") (some 1) ⟨[⟨1, "a", "b", "accepted"⟩], [("a", "b")]⟩ =
      (.err 404, ⟨[⟨1, "a", "b", "accepted"⟩], [("a", "b")]⟩) := by
  obtain ⟨s1, h1, h2, _h3, h4⟩ := friend_accept_then_second_not_found
    ⟨[⟨1, "a", "b", "pending"⟩], []⟩ ⟨1, "a", "b", "pending"⟩ (by decide) (by decide)
    rfl (by decide) (by decide) (by decide)
  have hcalc : handle_accept (some "b") (some 1) ⟨[⟨1, "a", "b", "pending"⟩], []⟩ =
      (.ok "a", ⟨[⟨1, "a", "b", "accepted"⟩], [("a", "b")]⟩) := by decide
  have h0 := hcalc.symm.trans h1
  injection h0 with _h01 h02
  subst h02
  exact ⟨h1, h2, h4⟩

/-- Counterexample for C3 as stated: in the store where request 1 from
`a` to `b` has already been accepted, accepting it again reports
failure at the store level and `NOT_FOUND` at the service level — not
an idempotent success. -/
theorem friend_double_accept_cex :
    handle_accept (some "b") (some 1) ⟨[⟨1, "a", "b", "pending"⟩], []⟩ =
      (.ok "a", ⟨[⟨1, "a", "b", "accepted"⟩], [("a", "b")]⟩) ∧
    (accept_friend_request 1 ⟨[⟨1, "a", "b", "accepted"⟩], [("a", "b")]⟩).1 = false ∧
    handle_accept (some "b") (some 1) ⟨[⟨1, "a", "b", "accepted"⟩], [("a", "b")]⟩ =
      (.err 404, ⟨[⟨1, "a", "b", "accepted"⟩], [("a", "b")]⟩) := by
  decide

/-- Enqueueing appends to the addressee's pending list and leaves every
other user's list alone. -/
theorem userMessages_enqueue {α : Type} (u v : String) (m : α) (q : QueueState α) :
    userMessages u (enqueue_offline_message v m q) =
      userMessages u q ++ (if v = u then [m] else []) := by
  simp only [userMessages, enqueue_offline_message, List.filter_append, List.map_append]
  by_cases hv : v = u <;> simp [hv]

/-- The member fan-out loop delivers to every member other than the
sender exactly once: live members get one wire write and no enqueue,
offline members get one enqueue appended to their queue; nobody else
is touched. -/
theorem deliverList_spec (live : String → Bool) (ms : List String) (sender : String)
    (ev : MessageEvent) :
    ∀ (q : QueueState MessageEvent), ms.Nodup →
    ∀ u, ((deliverList live ms sender ev q).2.filter (Delivery.forUser u) =
        (if u ∈ ms ∧ u ≠ sender ∧ u ≠ "" then
          (if live u then [.live u ev] else [.queued u ev]) else [])) ∧
      userMessages u (deliverList live ms sender ev q).1 =
        userMessages u q ++
          (if u ∈ ms ∧ u ≠ sender ∧ u ≠ "" ∧ live u = false then [ev] else []) := by
  induction ms with
  | nil =>
    intro q _ u
    simp [deliverList]
  | cons m rest ih =>
    intro q hnd u
    obtain ⟨hm, hnd'⟩ := List.nodup_cons.1 hnd
    by_cases hms : m = sender
    · rw [deliverList, if_pos hms]
      obtain ⟨ihf, ihq⟩ := ih q hnd' u
      rw [ihf, ihq]
      by_cases h1 : u = m
      · subst h1
        subst hms
        simp
      · constructor
        · congr 1
          simp [List.mem_cons, h1]
        · congr 2
          simp [List.mem_cons, h1]
    · rw [deliverList, if_neg hms]
      simp only [deliver_to_user]
      by_cases hme : m = ""
      · rw [if_pos hme]
        obtain ⟨ihf, ihq⟩ := ih q hnd' u
        simp only [List.nil_append]
        rw [ihf, ihq]
        by_cases h1 : u = m
        · subst h1
          simp [hme]
        · constructor
          · congr 1
            simp [List.mem_cons, h1]
          · congr 2
            simp [List.mem_cons, h1]
      · rw [if_neg hme]
        by_cases hlive : live m = true
        · rw [if_pos hlive]
          obtain ⟨ihf, ihq⟩ := ih q hnd' u
          constructor
          · simp only [List.singleton_append, List.filter_cons]
            rw [ihf]
            by_cases h1 : u = m
            · subst h1
              have : Delivery.forUser u (.live u ev) = true := by
                simp [Delivery.forUser]
              simp [this, hm, hms, hme, hlive]
            · have : Delivery.forUser u (.live m ev) = false := by
                simp only [Delivery.forUser, decide_eq_false_iff_not]
                exact fun hh => h1 hh.symm
              rw [if_neg (by simp [this])]
              congr 1
              simp [List.mem_cons, h1]
          · rw [ihq]
            by_cases h1 : u = m
            · subst h1
              simp [hlive]
            · congr 2
              simp [List.mem_cons, h1]
        · have hlive' : live m = false := by simpa using hlive
          rw [if_neg (by simp [hlive'])]
          obtain ⟨ihf, ihq⟩ := ih (enqueue_offline_message m ev q) hnd' u
          constructor
          · simp only [List.singleton_append, List.filter_cons]
            rw [ihf]
            by_cases h1 : u = m
            · subst h1
              have : Delivery.forUser u (.queued u ev) = true := by
                simp [Delivery.forUser]
              simp [this, hm, hms, hme, hlive']
            · have : Delivery.forUser u (.queued m ev) = false := by
                simp only [Delivery.forUser, decide_eq_false_iff_not]
                exact fun hh => h1 hh.symm
              rw [if_neg (by simp [this])]
              congr 1
              simp [List.mem_cons, h1]
          · rw [ihq, userMessages_enqueue]
            by_cases h1 : u = m
            · subst h1
              simp [hm, hms, hme, hlive']
            · have hmu : ¬ m = u := fun hh => h1 hh.symm
              rw [if_neg (by simpa using hmu), List.append_nil]
              congr 2
              simp [List.mem_cons, h1]

/-- C1: when `message/send` is acked with status 200, every intended
recipient — the target user, or each room member other than the
sender — is handled exactly once: a live recipient gets exactly the one
wire write of the event and nothing enqueued, an offline recipient
gets exactly the one offline-queue append of that same event and no
wire write.  The room hypothesis records what the schema guarantees:
member rows are unique and user ids non-empty. -/
theorem send_ok_delivers_each_recipient_once (live : String → Bool)
    (rooms : String → Option (List String)) (sender convo : String) (p : SendPayload)
    (s : MsgState) (mid : Nat) (s' : MsgState) (ds : List Delivery)
    (hroom : ∀ r members, p.target = .room (some r) → rooms r = some members →
      members.Nodup ∧ ∀ m ∈ members, m ≠ "")
    (hconvo : p.conversationId = some convo)
    (h : handle_send live rooms (some sender) p s = (.ok mid, s', ds)) :
    ∀ u ∈ intendedRecipients rooms sender p.target,
      ds.filter (Delivery.forUser u) =
        (if live u then [.live u ⟨convo, sender, p.content, s.nextId⟩]
         else [.queued u ⟨convo, sender, p.content, s.nextId⟩]) ∧
      userMessages u s'.queue =
        userMessages u s.queue ++
          (if live u then [] else [⟨convo, sender, p.content, s.nextId⟩]) := by
  obtain ⟨pc, ptgt, pcont⟩ := p
  simp only at hconvo hroom h ⊢
  subst hconvo
  by_cases hcv : convo = ""
  · simp only [handle_send, if_pos hcv] at h
    exact absurd (congrArg (fun x => x.1) h) (by simp)
  · cases ptgt with
    | user uid =>
        cases uid with
        | none =>
            intro u hu
            simp [intendedRecipients] at hu
        | some u0 =>
            intro u hu
            simp only [intendedRecipients] at hu
            by_cases h0 : u0 = ""
            · rw [if_pos h0] at hu
              simp at hu
            · rw [if_neg h0] at hu
              simp only [List.mem_singleton] at hu
              subst hu
              simp only [handle_send] at h
              rw [if_neg hcv] at h
              simp only [deliver_to_user, if_neg h0] at h
              by_cases hlive : live u = true
              · rw [if_pos hlive] at h
                injection h with h1 h23
                injection h23 with h2 h3
                rw [← h3, ← h2]
                refine ⟨?_, by simp [hlive]⟩
                have : Delivery.forUser u (.live u ⟨convo, sender, pcont, s.nextId⟩) =
                    true := by simp [Delivery.forUser]
                simp [List.filter_cons, this, hlive]
              · have hlive' : live u = false := by simpa using hlive
                rw [if_neg (by simp [hlive'])] at h
                injection h with h1 h23
                injection h23 with h2 h3
                rw [← h3, ← h2]
                constructor
                · have : Delivery.forUser u (.queued u ⟨convo, sender, pcont, s.nextId⟩) =
                      true := by simp [Delivery.forUser]
                  simp [List.filter_cons, this, hlive']
                · rw [userMessages_enqueue]
                  simp [hlive']
    | room rid =>
        cases rid with
        | none => simp [handle_send, hcv] at h
        | some r =>
            intro u hu
            simp only [intendedRecipients] at hu
            by_cases hr0 : r = ""
            · rw [if_pos hr0] at hu
              simp at hu
            · rw [if_neg hr0] at hu
              simp only [handle_send] at h
              rw [if_neg hcv] at h
              rw [if_neg hr0] at h
              cases hrm : rooms r with
              | none =>
                  rw [hrm] at h
                  simp at h
              | some members =>
                  simp only [hrm] at h hu
                  obtain ⟨hndm, hne⟩ := hroom r members rfl hrm
                  by_cases hsm : sender ∈ members
                  · rw [if_pos hsm] at h
                    injection h with h1 h23
                    injection h23 with h2 h3
                    obtain ⟨hf, hq⟩ := deliverList_spec live members sender
                      ⟨convo, sender, pcont, s.nextId⟩ s.queue hndm u
                    have humem : u ∈ members ∧ u ≠ sender := by
                      have := List.mem_filter.1 hu
                      refine ⟨this.1, ?_⟩
                      simpa using this.2
                    have hcond : u ∈ members ∧ u ≠ sender ∧ u ≠ "" :=
                      ⟨humem.1, humem.2, hne u humem.1⟩
                    constructor
                    · rw [← h3, hf, if_pos hcond]
                    · rw [← h2, hq]
                      by_cases hlive : live u = true
                      · simp [hcond, hlive]
                      · have hlive' : live u = false := by simpa using hlive
                        simp [hcond, hlive']
                  · rw [if_neg hsm] at h
                    simp at h
    | other =>
        intro u hu
        simp [intendedRecipients] at hu

/-- Witness for C1: Alice sends to room `r1` whose members are Alice,
Bob (online) and Carol (offline): Bob's only delivery is the live
write, Carol's only delivery is the enqueued event now pending. -/
theorem send_ok_delivers_each_recipient_once_witness :
    ([Delivery.live "bob" ⟨"c1", "alice", Json.null, 5⟩,
      Delivery.queued "carol" ⟨"c1", "alice", Json.null, 5⟩].filter
        (Delivery.forUser "carol") =
      [Delivery.queued "carol" ⟨"c1", "alice", Json.null, 5⟩]) ∧
    userMessages "carol"
      (⟨[⟨1, "carol", ⟨"c1", "alice", Json.null, 5⟩⟩], 2⟩ : QueueState MessageEvent) =
      [⟨"c1", "alice", Json.null, 5⟩] := by
  have h := send_ok_delivers_each_recipient_once (fun u => u = "bob")
    (fun r => if r = "r1" then some ["alice", "bob", "carol"] else none)
    "alice" "c1" ⟨some "c1", .room (some "r1"), Json.null⟩ ⟨[], emptyQueue, 5⟩ 5
    ⟨[⟨5, "c1", "alice", Json.null⟩],
     ⟨[⟨1, "carol", ⟨"c1", "alice", Json.null, 5⟩⟩], 2⟩, 6⟩
    [Delivery.live "bob" ⟨"c1", "alice", Json.null, 5⟩,
     Delivery.queued "carol" ⟨"c1", "alice", Json.null, 5⟩]
    (by
      intro r members h1 h2
      cases h1
      have hm : members = ["alice", "bob", "carol"] := by simpa using h2.symm
      subst hm
      exact ⟨by decide, by decide⟩)
    rfl rfl
  have h2 := h "carol" (by decide)
  exact ⟨h2.1.trans (by rfl), h2.2.trans (by rfl)⟩

/-- Membership in `list_room_members` is membership in the table. -/
theorem mem_list_room_members {u rid : String} {s : RoomsState} :
    u ∈ list_room_members rid s ↔ (rid, u) ∈ s.members := by
  rw [list_room_members, List.Perm.mem_iff (List.perm_insertionSort _ _)]
  simp only [List.mem_map, List.mem_filter]
  constructor
  · rintro ⟨⟨a, b⟩, ⟨hmem, hfst⟩, hsnd⟩
    simp only [decide_eq_true_eq] at hfst
    cases hfst
    cases hsnd
    exact hmem
  · intro hmem
    exact ⟨(rid, u), ⟨hmem, by simp⟩, rfl⟩

/-- C6 (amended): in every state reachable by room operations in which
no owner leaves their own room, every existing room's owner is listed
among its members.  (`room/kick` cannot remove the owner — only the
owner kicks and cannot kick themself — and `room/delete` removes the
room; only an owner `room/leave`, which the code permits, can break
this, so it is excluded.) -/
theorem rooms_owner_is_member (hashFn : String → String) (s : RoomsState)
    (h : RoomsReach hashFn s) :
    ∀ rid room, s.rooms rid = some room → room.owner ∈ list_room_members rid s := by
  have main : ∀ rid room, s.rooms rid = some room → (rid, room.owner) ∈ s.members := by
    induction h with
    | init =>
      intro rid room hr
      simp [emptyRooms] at hr
    | @step s0 op hre hok ih =>
      intro rid room hr
      cases op with
      | create u rid0 enc pw =>
        simp only [roomStep, roomApply, room_create] at hr ⊢
        by_cases h1 : rid0 = ""
        · rw [if_pos h1] at hr ⊢
          exact ih rid room hr
        · rw [if_neg h1] at hr ⊢
          by_cases h2 : enc ∧ strFalsy pw = true
          · rw [if_pos h2] at hr ⊢
            exact ih rid room hr
          · rw [if_neg h2] at hr ⊢
            cases hx : s0.rooms rid0 with
            | some room0 =>
              simp only [hx] at hr ⊢
              exact ih rid room hr
            | none =>
              simp only [hx] at hr ⊢
              by_cases hrr : rid = rid0
              · subst hrr
                rw [if_pos rfl] at hr
                injection hr with hroomeq
                subst hroomeq
                by_cases hin : (rid, u) ∈ s0.members
                · rw [if_pos hin]
                  exact hin
                · rw [if_neg hin]
                  exact List.mem_append.2 (Or.inr (by simp))
              · rw [if_neg hrr] at hr
                have := ih rid room hr
                by_cases hin : (rid0, u) ∈ s0.members
                · rw [if_pos hin]
                  exact this
                · rw [if_neg hin]
                  exact List.mem_append.2 (Or.inl this)
      | join u rid0 pw =>
        simp only [roomStep, roomApply, room_join] at hr ⊢
        by_cases h1 : rid0 = ""
        · rw [if_pos h1] at hr ⊢
          exact ih rid room hr
        · rw [if_neg h1] at hr ⊢
          cases hx : s0.rooms rid0 with
          | none =>
            simp only [hx] at hr ⊢
            exact ih rid room hr
          | some room0 =>
            simp only [hx] at hr ⊢
            by_cases h2 : room0.encrypted = true ∧ strFalsy pw = true
            · rw [if_pos h2] at hr ⊢
              exact ih rid room hr
            · rw [if_neg h2] at hr ⊢
              by_cases h3 : room0.encrypted = true ∧ ¬ room0.passwordHash = pw.map hashFn
              · rw [if_pos h3] at hr ⊢
                exact ih rid room hr
              · rw [if_neg h3] at hr ⊢
                by_cases h4 : (rid0, u) ∈ s0.members
                · rw [if_pos h4] at hr ⊢
                  exact ih rid room hr
                · rw [if_neg h4] at hr ⊢
                  exact List.mem_append.2 (Or.inl (ih rid room hr))
      | leave u rid0 =>
        simp only [roomStep, roomApply, room_leave] at hr ⊢
        by_cases h1 : rid0 = ""
        · rw [if_pos h1] at hr ⊢
          exact ih rid room hr
        · rw [if_neg h1] at hr ⊢
          cases hx : s0.rooms rid0 with
          | none =>
            simp only [hx] at hr ⊢
            exact ih rid room hr
          | some room0 =>
            simp only [hx] at hr ⊢
            apply List.mem_filter.2
            refine ⟨ih rid room hr, ?_⟩
            simp only [decide_eq_true_eq, Prod.mk.injEq, not_and]
            intro hrr
            subst hrr
            rw [hr] at hx
            injection hx with hx'
            subst hx'
            intro hu
            exact hok (by rw [ownerLeave, hr]; exact hu.symm ▸ rfl)
      | kick u rid0 target =>
        simp only [roomStep, roomApply, room_kick] at hr ⊢
        by_cases h1 : rid0 = "" ∨ target = ""
        · rw [if_pos h1] at hr ⊢
          exact ih rid room hr
        · rw [if_neg h1] at hr ⊢
          cases hx : s0.rooms rid0 with
          | none =>
            simp only [hx] at hr ⊢
            exact ih rid room hr
          | some room0 =>
            simp only [hx] at hr ⊢
            by_cases h2 : ¬ room0.owner = u
            · rw [if_pos h2] at hr ⊢
              exact ih rid room hr
            · rw [if_neg h2] at hr ⊢
              by_cases h3 : target = u
              · rw [if_pos h3] at hr ⊢
                exact ih rid room hr
              · rw [if_neg h3] at hr ⊢
                apply List.mem_filter.2
                refine ⟨ih rid room hr, ?_⟩
                simp only [decide_eq_true_eq, Prod.mk.injEq, not_and]
                intro hrr
                subst hrr
                rw [hr] at hx
                injection hx with hx'
                subst hx'
                push_neg at h2
                rw [h2]
                intro hu
                exact h3 hu.symm
      | delete u rid0 =>
        simp only [roomStep, roomApply, room_delete] at hr ⊢
        by_cases h1 : rid0 = ""
        · rw [if_pos h1] at hr ⊢
          exact ih rid room hr
        · rw [if_neg h1] at hr ⊢
          cases hx : s0.rooms rid0 with
          | none =>
            simp only [hx] at hr ⊢
            exact ih rid room hr
          | some room0 =>
            simp only [hx] at hr ⊢
            by_cases h2 : ¬ room0.owner = u
            · rw [if_pos h2] at hr ⊢
              exact ih rid room hr
            · rw [if_neg h2] at hr ⊢
              dsimp only at hr ⊢
              by_cases hrr : rid = rid0
              · rw [if_pos hrr] at hr
                exact absurd hr (by simp)
              · rw [if_neg hrr] at hr
                apply List.mem_filter.2
                refine ⟨ih rid room hr, ?_⟩
                simp [hrr]
  intro rid room hr
  exact mem_list_room_members.2 (main rid room hr)

/-- Witness for C6 at the state reached by one `room/create`. -/
theorem rooms_owner_is_member_witness :
    "a" ∈ list_room_members "r"
      (roomStep (fun x => x) emptyRooms (.create "a" "r" false none)) := by
  have h := rooms_owner_is_member (fun x => x)
    (roomStep (fun x => x) emptyRooms (.create "a" "r" false none))
    (RoomsReach.step RoomsReach.init (by simp [ownerLeave]))
    "r" ⟨"a", false, none⟩ (by decide)
  simpa using h

/-- Counterexample for C6 as stated: the owner creates a room and then
leaves it; the room still exists with them as owner, but its member
list is empty. -/
theorem room_owner_leave_cex :
    (roomStep (fun x => x) (roomStep (fun x => x) emptyRooms
        (.create "a" "r" false none)) (.leave "a" "r")).rooms "r" =
      some ⟨"a", false, none⟩ ∧
    list_room_members "r" (roomStep (fun x => x) (roomStep (fun x => x) emptyRooms
        (.create "a" "r" false none)) (.leave "a" "r")) = [] := by
  decide

/-- Membership after `addParticipant`. -/
theorem mem_addParticipant {x u : String} (c : VCall) :
    x ∈ (addParticipant u c).participants ↔ (x ∈ c.participants ∨ x = u) := by
  by_cases h : u ∈ c.participants
  · have hps : (addParticipant u c).participants = c.participants := by
      by_cases hs : c.status = .ringing <;> simp [addParticipant, h, hs]
    rw [hps]
    constructor
    · exact Or.inl
    · rintro (hx | rfl)
      · exact hx
      · exact h
  · have hps : (addParticipant u c).participants = c.participants ++ [u] := by
      by_cases hs : c.status = .ringing <;> simp [addParticipant, h, hs]
    rw [hps]
    simp

/-- `addParticipant` keeps the status away from `ended`. -/
theorem addParticipant_status {u : String} (c : VCall) (h : c.status ≠ .ended) :
    (addParticipant u c).status ≠ .ended := by
  by_cases hs : c.status = .ringing <;> by_cases hm : u ∈ c.participants <;>
    simp [addParticipant, hs, hm, h]

/-- `addParticipant` keeps the participant set duplicate-free. -/
theorem addParticipant_nodup {u : String} (c : VCall) (h : c.participants.Nodup) :
    (addParticipant u c).participants.Nodup := by
  by_cases hm : u ∈ c.participants
  · have hps : (addParticipant u c).participants = c.participants := by
      by_cases hs : c.status = .ringing <;> simp [addParticipant, hm, hs]
    rw [hps]
    exact h
  · have hps : (addParticipant u c).participants = c.participants ++ [u] := by
      by_cases hs : c.status = .ringing <;> simp [addParticipant, hm, hs]
    rw [hps]
    simp [List.nodup_append, h, hm]

/-- `_cleanup_call` preserves the voice invariant. -/
theorem cleanup_call_preserves {cid : String} {s : VoiceState} {c : VCall}
    (hc : s.active_calls cid = some c) (hG : voiceInv s) :
    voiceInv (cleanup_call cid s) := by
  obtain ⟨hA, hU⟩ := hG
  rw [cleanup_call, hc]
  constructor
  · intro c0 call0 h0
    dsimp only at h0
    by_cases he : c0 = cid
    · rw [if_pos he] at h0
      exact absurd h0 (by simp)
    · rw [if_neg he] at h0
      exact hA c0 call0 h0
  · intro x d
    dsimp only
    by_cases hx : x ∈ c.participants
    · rw [if_pos hx]
      constructor
      · intro h0
        exact absurd h0 (by simp)
      · rintro ⟨call0, hcall0, hxc0⟩
        by_cases hd : d = cid
        · rw [if_pos hd] at hcall0
          exact absurd hcall0 (by simp)
        · rw [if_neg hd] at hcall0
          have h1 : s.user_to_call x = some d := (hU x d).2 ⟨call0, hcall0, hxc0⟩
          have h2 : s.user_to_call x = some cid := (hU x cid).2 ⟨c, hc, hx⟩
          rw [h1] at h2
          injection h2 with h2
          exact absurd h2 hd
    · rw [if_neg hx]
      by_cases hd : d = cid
      · subst hd
        constructor
        · intro h0
          obtain ⟨call0, hcall0, hxc0⟩ := (hU x d).1 h0
          rw [hc] at hcall0
          injection hcall0 with hcall0
          subst hcall0
          exact absurd hxc0 hx
        · rintro ⟨call0, hcall0, -⟩
          rw [if_pos rfl] at hcall0
          exact absurd hcall0 (by simp)
      · rw [hU x d]
        constructor <;> rintro ⟨call0, hcall0, hxc0⟩
        · exact ⟨call0, by rw [if_neg hd]; exact hcall0, hxc0⟩
        · rw [if_neg hd] at hcall0
          exact ⟨call0, hcall0, hxc0⟩

/-- `handle_end` preserves the voice invariant. -/
theorem voice_end_preserves (u cid : String) (s : VoiceState) (hG : voiceInv s) :
    voiceInv (voice_end u cid s).2 := by
  obtain ⟨hA, hU⟩ := hG
  rw [voice_end]
  cases hc : s.active_calls cid with
  | none => exact ⟨hA, hU⟩
  | some c =>
    dsimp only
    by_cases hup : ¬ u ∈ c.participants
    · rw [if_pos hup]
      exact ⟨hA, hU⟩
    · rw [if_neg hup]
      push_neg at hup
      obtain ⟨hcs, hcnd⟩ := hA cid c hc
      have hG1 : voiceInv
          ⟨fun x => if x = cid then some { c with participants := c.participants.erase u }
              else s.active_calls x,
           fun x => if x = u then none else s.user_to_call x⟩ := by
        constructor
        · intro c0 call0 h0
          dsimp only at h0
          by_cases he : c0 = cid
          · rw [if_pos he] at h0
            injection h0 with h0
            subst h0
            exact ⟨hcs, hcnd.erase u⟩
          · rw [if_neg he] at h0
            exact hA c0 call0 h0
        · intro x d
          dsimp only
          by_cases hx : x = u
          · subst hx
            rw [if_pos rfl]
            constructor
            · intro h0
              exact absurd h0 (by simp)
            · rintro ⟨call0, hcall0, hxc0⟩
              by_cases hd : d = cid
              · rw [if_pos hd] at hcall0
                injection hcall0 with hcall0
                subst hcall0
                exact absurd hxc0 (hcnd.not_mem_erase)
              · rw [if_neg hd] at hcall0
                have h1 : s.user_to_call x = some d := (hU x d).2 ⟨call0, hcall0, hxc0⟩
                have h2 : s.user_to_call x = some cid := (hU x cid).2 ⟨c, hc, hup⟩
                rw [h1] at h2
                injection h2 with h2
                exact absurd h2 hd
          · rw [if_neg hx]
            by_cases hd : d = cid
            · subst hd
              rw [if_pos rfl]
              constructor
              · intro h0
                obtain ⟨call0, hcall0, hxc0⟩ := (hU x d).1 h0
                rw [hc] at hcall0
                injection hcall0 with hcall0
                subst hcall0
                exact ⟨_, rfl, (List.mem_erase_of_ne hx).2 hxc0⟩
              · rintro ⟨call0, hcall0, hxc0⟩
                injection hcall0 with hcall0
                subst hcall0
                exact (hU x d).2 ⟨c, hc, List.mem_of_mem_erase hxc0⟩
            · rw [if_neg hd, hU x d]
      by_cases hrem : c.callType = "group" ∧ c.participants.erase u ≠ []
      · rw [if_pos hrem]
        exact hG1
      · rw [if_neg hrem]
        exact cleanup_call_preserves (by dsimp only; rw [if_pos rfl]) hG1

/-- `handle_call` with a fresh call id preserves the voice invariant. -/
theorem voice_call_preserves (u cid ct tt tid : String) (s : VoiceState)
    (hok : s.active_calls cid = none) (hG : voiceInv s) :
    voiceInv (voice_call u cid ct tt tid s).2 := by
  obtain ⟨hA, hU⟩ := hG
  rw [voice_call]
  by_cases hg1 : tt = "" ∨ tid = ""
  · rw [if_pos hg1]
    exact ⟨hA, hU⟩
  · rw [if_neg hg1]
    cases hu : s.user_to_call u with
    | some d =>
      exact ⟨hA, hU⟩
    | none =>
      simp only [Option.isSome_none, Bool.false_eq_true, if_false]
      constructor
      · intro c0 call0 h0
        dsimp only at h0
        by_cases he : c0 = cid
        · rw [if_pos he] at h0
          injection h0 with h0
          subst h0
          exact ⟨by simp, by simp⟩
        · rw [if_neg he] at h0
          exact hA c0 call0 h0
      · intro x d
        dsimp only
        by_cases hx : x = u
        · subst hx
          rw [if_pos rfl]
          by_cases hd : d = cid
          · subst hd
            rw [if_pos rfl]
            simp
          · rw [if_neg hd]
            constructor
            · intro h0
              injection h0 with h0
              exact absurd h0.symm hd
            · rintro ⟨call0, hcall0, hxc0⟩
              have h1 : s.user_to_call x = some d := (hU x d).2 ⟨call0, hcall0, hxc0⟩
              rw [hu] at h1
              exact absurd h1 (by simp)
        · rw [if_neg hx]
          by_cases hd : d = cid
          · subst hd
            rw [if_pos rfl]
            constructor
            · intro h0
              obtain ⟨call0, hcall0, -⟩ := (hU x d).1 h0
              rw [hok] at hcall0
              exact absurd hcall0 (by simp)
            · rintro ⟨call0, hcall0, hxc0⟩
              injection hcall0 with hcall0
              subst hcall0
              simp only [List.mem_singleton] at hxc0
              exact absurd hxc0 hx
          · rw [if_neg hd, hU x d]

/-- `handle_answer` by a user not already in a call preserves the voice
invariant. -/
theorem voice_answer_preserves (u cid : String) (s : VoiceState)
    (hok : s.user_to_call u = none) (hG : voiceInv s) :
    voiceInv (voice_answer u cid s).2 := by
  obtain ⟨hA, hU⟩ := hG
  rw [voice_answer]
  cases hc : s.active_calls cid with
  | none => exact ⟨hA, hU⟩
  | some c =>
    dsimp only
    by_cases hg1 : c.callType = "direct" ∧ c.status ≠ .ringing
    · rw [if_pos hg1]
      exact ⟨hA, hU⟩
    · rw [if_neg hg1]
      by_cases hg2 : c.callType = "group" ∧ c.status = .ended
      · rw [if_pos hg2]
        exact ⟨hA, hU⟩
      · rw [if_neg hg2]
        obtain ⟨hcs, hcnd⟩ := hA cid c hc
        constructor
        · intro c0 call0 h0
          dsimp only at h0
          by_cases he : c0 = cid
          · rw [if_pos he] at h0
            injection h0 with h0
            subst h0
            exact ⟨addParticipant_status c hcs, addParticipant_nodup c hcnd⟩
          · rw [if_neg he] at h0
            exact hA c0 call0 h0
        · intro x d
          dsimp only
          by_cases hx : x = u
          · subst hx
            rw [if_pos rfl]
            by_cases hd : d = cid
            · subst hd
              rw [if_pos rfl]
              constructor
              · intro _
                exact ⟨addParticipant x c, rfl, (mem_addParticipant c).2 (Or.inr rfl)⟩
              · intro _
                rfl
            · rw [if_neg hd]
              constructor
              · intro h0
                injection h0 with h0
                exact absurd h0.symm hd
              · rintro ⟨call0, hcall0, hxc0⟩
                have h1 : s.user_to_call x = some d := (hU x d).2 ⟨call0, hcall0, hxc0⟩
                rw [hok] at h1
                exact absurd h1 (by simp)
          · rw [if_neg hx]
            by_cases hd : d = cid
            · subst hd
              rw [if_pos rfl]
              constructor
              · intro h0
                obtain ⟨call0, hcall0, hxc0⟩ := (hU x d).1 h0
                rw [hc] at hcall0
                injection hcall0 with hcall0
                subst hcall0
                exact ⟨addParticipant u c, rfl,
                  (mem_addParticipant c).2 (Or.inl hxc0)⟩
              · rintro ⟨call0, hcall0, hxc0⟩
                injection hcall0 with hcall0
                subst hcall0
                rcases (mem_addParticipant c).1 hxc0 with hxc | hxc
                · exact (hU x d).2 ⟨c, hc, hxc⟩
                · exact absurd hxc hx
            · rw [if_neg hd, hU x d]

/-- `handle_reject` preserves the voice invariant. -/
theorem voice_reject_preserves (u cid : String) (s : VoiceState) (hG : voiceInv s) :
    voiceInv (voice_reject u cid s).2 := by
  rw [voice_reject]
  cases hc : s.active_calls cid with
  | none => exact hG
  | some c =>
    dsimp only
    by_cases hd : c.callType = "direct"
    · rw [if_pos hd]
      exact cleanup_call_preserves hc hG
    · rw [if_neg hd]
      exact hG

/-- Every reachable voice state satisfies the invariant. -/
theorem vreach_voiceInv (s : VoiceState) (h : VReach s) : voiceInv s := by
  induction h with
  | init =>
    constructor
    · intro c call h0
      exact absurd h0 (by simp [emptyVoice])
    · intro x d
      constructor
      · intro h0
        exact absurd h0 (by simp [emptyVoice])
      · rintro ⟨call0, hcall0, -⟩
        exact absurd hcall0 (by simp [emptyVoice])
  | @step s0 op hre hok ih =>
    cases op with
    | call u cid ct tt tid => exact voice_call_preserves u cid ct tt tid s0 hok ih
    | answer u cid => exact voice_answer_preserves u cid s0 hok ih
    | reject u cid => exact voice_reject_preserves u cid s0 ih
    | endOp u cid => exact voice_end_preserves u cid s0 ih
    | disconnect u =>
      rw [vstep, voice_disconnect]
      cases hu : s0.user_to_call u with
      | none => exact ih
      | some cid =>
        dsimp only
        cases hc : s0.active_calls cid with
        | none => exact ih
        | some c => exact voice_end_preserves u cid s0 ih

/-- C4 (amended): in every state reachable by voice operations whose
`voice/call` ids are fresh and whose `voice/answer` callers are not
already in a call, `user_to_call[u] = c` holds exactly when `u` is a
participant of the stored call `c` and that call is not ended; and a
final `voice/end` (direct call, or last group participant) removes the
call and every `user_to_call` entry pointing at it. -/
theorem voice_maps_consistent (s : VoiceState) (h : VReach s) :
    (∀ u c, s.user_to_call u = some c ↔
      ∃ call, s.active_calls c = some call ∧ u ∈ call.participants ∧
        call.status ≠ .ended) ∧
    (∀ u c call, s.active_calls c = some call → u ∈ call.participants →
      ¬ (call.callType = "group" ∧ call.participants.erase u ≠ []) →
      (vstep s (.endOp u c)).active_calls c = none ∧
      ∀ x, ¬ (vstep s (.endOp u c)).user_to_call x = some c) := by
  obtain ⟨hA, hU⟩ := vreach_voiceInv s h
  constructor
  · intro u c
    rw [hU u c]
    constructor
    · rintro ⟨call0, hcall0, hu0⟩
      exact ⟨call0, hcall0, hu0, (hA c call0 hcall0).1⟩
    · rintro ⟨call0, hcall0, hu0, -⟩
      exact ⟨call0, hcall0, hu0⟩
  · intro u c call hc hu hfinal
    have hstep : vstep s (.endOp u c) = (voice_end u c s).2 := rfl
    rw [hstep, voice_end, hc]
    dsimp only
    rw [if_neg (by simpa using hu), if_neg hfinal, cleanup_call]
    dsimp only
    rw [if_pos rfl]
    dsimp only
    constructor
    · rw [if_pos rfl]
    · intro x
      by_cases hx : x ∈ call.participants.erase u
      · rw [if_pos hx]
        simp
      · rw [if_neg hx]
        by_cases hxu : x = u
        · rw [if_pos hxu]
          simp
        · rw [if_neg hxu]
          intro h0
          obtain ⟨call0, hcall0, hxc0⟩ := (hU x c).1 h0
          rw [hc] at hcall0
          injection hcall0 with hcall0
          subst hcall0
          exact hx ((List.mem_erase_of_ne hxu).2 hxc0)

/-- Witness for C4 at the two-user state of an answered direct call. -/
theorem voice_maps_consistent_witness :
    ((vstep (vstep emptyVoice (.call "x" "c1" "direct" "user" "a"))
        (.answer "a" "c1")).user_to_call "a" = some "c1" ↔
      ∃ call, (vstep (vstep emptyVoice (.call "x" "c1" "direct" "user" "a"))
          (.answer "a" "c1")).active_calls "c1" = some call ∧
        "a" ∈ call.participants ∧ call.status ≠ .ended) := by
  have h := voice_maps_consistent
    (vstep (vstep emptyVoice (.call "x" "c1" "direct" "user" "a")) (.answer "a" "c1"))
    (VReach.step (VReach.step VReach.init (by simp [vokOp, emptyVoice]))
      (by simp [vokOp, vstep, voice_call, emptyVoice]))
  exact h.1 "a" "c1"

/-- Counterexample for C4 as stated: with no freshness or single-call
restriction, a user who answers a second call while already in one
leaves the first call's participant set pointing at them while
`user_to_call` names the second call — the claimed equivalence fails
at the first call. -/
theorem voice_maps_cex :
    (∃ call, (vstep (vstep (vstep (vstep emptyVoice
        (.call "x" "c1" "direct" "user" "a")) (.answer "a" "c1"))
        (.call "y" "c2" "direct" "user" "a")) (.answer "a" "c2")).active_calls "c1" =
          some call ∧
      "a" ∈ call.participants ∧ call.status ≠ .ended) ∧
    ¬ (vstep (vstep (vstep (vstep emptyVoice
        (.call "x" "c1" "direct" "user" "a")) (.answer "a" "c1"))
        (.call "y" "c2" "direct" "user" "a")) (.answer "a" "c2")).user_to_call "a" =
          some "c1" := by
  constructor
  · exact ⟨⟨"x", "direct", "user", "a", .connected, ["x", "a"]⟩, by decide, by decide,
      by decide⟩
  · decide

/-- `skipWs` leaves a non-whitespace-headed list alone. -/
theorem skipWs_cons {c : Char} (l : List Char) (h : isWsChar c = false) :
    skipWs (c :: l) = c :: l := by
  simp [skipWs, h]

/-- Decimal digit characters parse back to their value. -/
theorem digitChar_facts :
    ∀ n < 10, isDigitChar (digitChar n) = true ∧ digVal (digitChar n) = n := by decide

/-- Hexadecimal digit characters parse back to their value. -/
theorem hexDigitChar_facts :
    ∀ n < 16, hexVal (hexDigitChar n) = some n := by decide

/-- A digit character is distinct from every parser dispatch character. -/
theorem isDigitChar_class {c : Char} (h : isDigitChar c = true) :
    c ≠ 'n' ∧ c ≠ 't' ∧ c ≠ 'f' ∧ c ≠ '"' ∧ c ≠ '[' ∧ c ≠ '\x7b' ∧ c ≠ '-' ∧
      isWsChar c = false := by
  refine ⟨?_, ?_, ?_, ?_, ?_, ?_, ?_, ?_⟩
  · intro hh; subst hh; exact absurd h (by decide)
  · intro hh; subst hh; exact absurd h (by decide)
  · intro hh; subst hh; exact absurd h (by decide)
  · intro hh; subst hh; exact absurd h (by decide)
  · intro hh; subst hh; exact absurd h (by decide)
  · intro hh; subst hh; exact absurd h (by decide)
  · intro hh; subst hh; exact absurd h (by decide)
  · by_contra hw
    have hw' : isWsChar c = true := by simpa using hw
    rw [isWsChar, decide_eq_true_eq] at hw'
    rcases hw' with hh | hh | hh | hh <;> (subst hh; exact absurd h (by decide))

/-- `parseDigits` consumes exactly a digit run followed by a non-digit. -/
theorem parseDigits_append :
    ∀ (ds : List Char) (acc : Nat) (rest : List Char),
      (∀ c ∈ ds, isDigitChar c = true) → noDigitStart rest →
      parseDigits (ds ++ rest) acc =
        (ds.foldl (fun a c => a * 10 + digVal c) acc, rest)
  | [], acc, rest, _, hrest => by
      cases rest with
      | nil => simp [parseDigits]
      | cons c cs =>
          rw [noDigitStart] at hrest
          simp [parseDigits, hrest]
  | c :: ds, acc, rest, hds, hrest => by
      have hc := hds c (List.mem_cons_self c ds)
      simp only [List.cons_append, parseDigits, hc, if_pos, List.foldl_cons]
      exact parseDigits_append ds _ rest (fun x hx => hds x (List.mem_cons_of_mem c hx))
        hrest

/-- The fuelled decimal rendering is a non-empty digit run whose value
folds back to the number. -/
theorem natCharsFuel_spec :
    ∀ (f n : Nat), n < f →
      natCharsFuel f n ≠ [] ∧ (∀ c ∈ natCharsFuel f n, isDigitChar c = true) ∧
      ∀ acc, (natCharsFuel f n).foldl (fun a c => a * 10 + digVal c) acc =
        acc * 10 ^ (natCharsFuel f n).length + n
  | 0, n, h => absurd h (Nat.not_lt_zero n)
  | f + 1, n, h => by
      by_cases h10 : n < 10
      · simp only [natCharsFuel, if_pos h10]
        refine ⟨by simp, ?_, ?_⟩
        · intro c hc
          simp only [List.mem_singleton] at hc
          subst hc
          exact (digitChar_facts n h10).1
        · intro acc
          simp [(digitChar_facts n h10).2]
      · simp only [natCharsFuel, if_neg h10]
        have hrec : n / 10 < f := by
          have h1 : n / 10 < n := Nat.div_lt_self (by omega) (by omega)
          omega
        obtain ⟨hne, hdig, hval⟩ := natCharsFuel_spec f (n / 10) hrec
        have hm10 : n % 10 < 10 := Nat.mod_lt n (by omega)
        refine ⟨by simp, ?_, ?_⟩
        · intro c hc
          rcases List.mem_append.1 hc with hc | hc
          · exact hdig c hc
          · simp only [List.mem_singleton] at hc
            subst hc
            exact (digitChar_facts (n % 10) hm10).1
        · intro acc
          rw [List.foldl_append, hval acc]
          simp only [List.foldl_cons, List.foldl_nil, List.length_append,
            List.length_singleton]
          rw [(digitChar_facts (n % 10) hm10).2]
          have hdm : 10 * (n / 10) + n % 10 = n := Nat.div_add_mod n 10
          have hpow : 10 ^ ((natCharsFuel f (n / 10)).length + 1) =
              10 ^ (natCharsFuel f (n / 10)).length * 10 := pow_succ 10 _
          rw [hpow]
          ring_nf
          omega

/-- The decimal rendering of a natural parses back. -/
theorem natChars_spec (n : Nat) :
    natChars n ≠ [] ∧ (∀ c ∈ natChars n, isDigitChar c = true) ∧
    ∀ rest, noDigitStart rest → parseDigits (natChars n ++ rest) 0 = (n, rest) := by
  obtain ⟨hne, hdig, hval⟩ := natCharsFuel_spec (n + 1) n (Nat.lt_succ_self n)
  refine ⟨hne, hdig, ?_⟩
  intro rest hrest
  rw [natChars, parseDigits_append _ _ _ hdig hrest, hval 0]
  simp

/-- The decimal rendering of an integer parses back as a numeral. -/
theorem parseNum_intChars (i : Int) (rest : List Char) (hrest : noDigitStart rest) :
    parseNum (intChars i ++ rest) = some (i, rest) := by
  obtain ⟨hne, hdig, hparse⟩ := natChars_spec i.natAbs
  obtain ⟨c, t, hct⟩ : ∃ c t, natChars i.natAbs = c :: t := by
    cases hx : natChars i.natAbs with
    | nil => exact absurd hx hne
    | cons c t => exact ⟨c, t, rfl⟩
  have hcdig : isDigitChar c = true := hdig c (by rw [hct]; exact List.mem_cons_self c t)
  by_cases hneg : i < 0
  · rw [intChars, if_pos hneg, hct, List.cons_append, List.cons_append]
    simp only [parseNum, if_pos rfl, hcdig, if_pos]
    have := hparse rest hrest
    rw [hct, List.cons_append] at this
    rw [this]
    have habs : -((i.natAbs : Int)) = i := by omega
    rw [habs]
  · rw [intChars, if_neg hneg, hct, List.cons_append]
    simp only [parseNum]
    rw [if_neg (isDigitChar_class hcdig).2.2.2.2.2.2.1, if_pos hcdig]
    have := hparse rest hrest
    rw [hct, List.cons_append] at this
    rw [this]
    have habs : ((i.natAbs : Int)) = i := by omega
    rw [habs]

/-- Escaping never shortens a string. -/
theorem escString_length_ge (s : List Char) : s.length ≤ (escString s).length := by
  induction s with
  | nil => simp [escString]
  | cons c cs ih =>
    have hc : 1 ≤ (escChar c).length := by
      rw [escChar]
      split_ifs <;> simp
    simp only [escString, List.length_append, List.length_cons]
    omega

/-- The body of a serialized string parses back to the original
characters, stopping at the closing quote. -/
theorem parseStr_escString :
    ∀ (s : List Char) (f : Nat) (rest : List Char), s.length < f →
      parseStrF f (escString s ++ '"' :: rest) = some (s, rest)
  | [], f, rest, hf => by
      cases f with
      | zero => omega
      | succ f0 => simp [escString, parseStrF]
  | c :: cs, f, rest, hf => by
      cases f with
      | zero => omega
      | succ f0 =>
        have hrec : cs.length < f0 := by
          simp only [List.length_cons] at hf
          omega
        have hIH := parseStr_escString cs f0 rest hrec
        rw [escString]
        by_cases h1 : c = '"'
        · subst h1
          simp [escChar, parseStrF, unescapeChar, hIH]
        · by_cases h2 : c = '\\'
          · subst h2
            simp [escChar, parseStrF, unescapeChar, hIH]
          · by_cases h3 : c = Char.ofNat 8
            · subst h3
              simp [escChar, parseStrF, unescapeChar, hIH]
            · by_cases h4 : c = Char.ofNat 9
              · subst h4
                simp [escChar, parseStrF, unescapeChar, hIH]
              · by_cases h5 : c = Char.ofNat 10
                · subst h5
                  simp [escChar, parseStrF, unescapeChar, hIH]
                · by_cases h6 : c = Char.ofNat 12
                  · subst h6
                    simp [escChar, parseStrF, unescapeChar, hIH]
                  · by_cases h7 : c = Char.ofNat 13
                    · subst h7
                      simp [escChar, parseStrF, unescapeChar, hIH]
                    · by_cases h32 : c.toNat < 32
                      · rw [escChar, if_neg h1, if_neg h2, if_neg h3, if_neg h4,
                          if_neg h5, if_neg h6, if_neg h7, if_pos h32]
                        have hh1 := hexDigitChar_facts (c.toNat / 16) (by omega)
                        have hh2 := hexDigitChar_facts (c.toNat % 16) (by omega)
                        have hz : hexVal '0' = some 0 := by decide
                        have hc' : Char.ofNat (((0 * 16 + 0) * 16 + c.toNat / 16) * 16 +
                            c.toNat % 16) = c := by
                          have harith : ((0 * 16 + 0) * 16 + c.toNat / 16) * 16 +
                              c.toNat % 16 = c.toNat := by omega
                          rw [harith, Char.ofNat_toNat]
                        simp [parseStrF, hz, hh1, hh2, hIH, hc']
                        have harith2 : c.toNat / 16 * 16 + c.toNat % 16 = c.toNat := by
                          omega
                        rw [harith2, Char.ofNat_toNat]
                      · rw [escChar, if_neg h1, if_neg h2, if_neg h3, if_neg h4,
                          if_neg h5, if_neg h6, if_neg h7, if_neg h32]
                        simp [parseStrF, h1, h2, h32, hIH]

/-- Every serialized value is nonempty and starts with a character that
is neither whitespace nor a closing bracket. -/
theorem serVal_head (v : Json) :
    ∃ c t, serVal v = c :: t ∧ isWsChar c = false ∧ c ≠ ']' ∧ c ≠ '\x7d' := by
  cases v with
  | null => exact ⟨'n', _, rfl, by decide, by decide, by decide⟩
  | bool b =>
      cases b with
      | false => exact ⟨'f', _, rfl, by decide, by decide, by decide⟩
      | true => exact ⟨'t', _, rfl, by decide, by decide, by decide⟩
  | num n =>
      by_cases hneg : n < 0
      · refine ⟨'-', natChars n.natAbs, ?_, by decide, by decide, by decide⟩
        simp [serVal, intChars, hneg]
      · obtain ⟨hne, hdig, -⟩ := natChars_spec n.natAbs
        obtain ⟨c, t, hct⟩ : ∃ c t, natChars n.natAbs = c :: t := by
          cases hx : natChars n.natAbs with
          | nil => exact absurd hx hne
          | cons c t => exact ⟨c, t, rfl⟩
        have hcd : isDigitChar c = true :=
          hdig c (by rw [hct]; exact List.mem_cons_self c t)
        refine ⟨c, t, ?_, (isDigitChar_class hcd).2.2.2.2.2.2.2, ?_, ?_⟩
        · simp [serVal, intChars, hneg, hct]
        · intro hh; subst hh; exact absurd hcd (by decide)
        · intro hh; subst hh; exact absurd hcd (by decide)
  | str s => exact ⟨'"', _, rfl, by decide, by decide, by decide⟩
  | arr xs =>
      cases xs with
      | nil => exact ⟨'[', _, rfl, by decide, by decide, by decide⟩
      | cons x xs => exact ⟨'[', _, rfl, by decide, by decide, by decide⟩
  | obj kvs =>
      cases kvs with
      | nil => exact ⟨'\x7b', _, rfl, by decide, by decide, by decide⟩
      | cons kv kvs => exact ⟨'\x7b', _, rfl, by decide, by decide, by decide⟩

/-- The fuel requirement of every value is positive. -/
theorem fuelNeed_pos (v : Json) : 1 ≤ fuelNeed v := by
  cases v <;> simp only [fuelNeed] <;> omega

/-- The tail after a serialized array element does not start with a digit. -/
theorem noDigitStart_serElemsRest (xs : List Json) (rest : List Char) :
    noDigitStart (serElemsRest xs ++ ']' :: rest) := by
  cases xs with
  | nil => exact (by decide : isDigitChar ']' = false)
  | cons y ys => exact (by decide : isDigitChar ',' = false)

/-- The tail after a serialized object value does not start with a digit. -/
theorem noDigitStart_serMembersRest (kvs : List (List Char × Json)) (rest : List Char) :
    noDigitStart (serMembersRest kvs ++ '\x7d' :: rest) := by
  cases kvs with
  | nil => exact (by decide : isDigitChar '\x7d' = false)
  | cons kv kvs => exact (by decide : isDigitChar ',' = false)

/-- A rendered numeral ends in a decimal digit. -/
theorem natCharsFuel_last :
    ∀ (f n : Nat), n < f →
      ∃ d t, (natCharsFuel f n).reverse = d :: t ∧ isDigitChar d = true
  | 0, n, h => absurd h (Nat.not_lt_zero n)
  | f + 1, n, h => by
      by_cases h10 : n < 10
      · refine ⟨digitChar n, [], ?_, (digitChar_facts n h10).1⟩
        simp [natCharsFuel, h10]
      · refine ⟨digitChar (n % 10), (natCharsFuel f (n / 10)).reverse, ?_,
          (digitChar_facts (n % 10) (Nat.mod_lt n (by omega))).1⟩
        simp [natCharsFuel, h10]

/-- The last character of a serialized value is never the frame delimiter. -/
theorem serVal_last (v : Json) :
    ∃ c t, (serVal v).reverse = c :: t ∧ c ≠ '\n' := by
  cases v with
  | null => exact ⟨'l', _, rfl, by decide⟩
  | bool b =>
      cases b with
      | false => exact ⟨'e', _, rfl, by decide⟩
      | true => exact ⟨'e', _, rfl, by decide⟩
  | num n =>
      obtain ⟨d, t, hdt, hd⟩ := natCharsFuel_last (n.natAbs + 1) n.natAbs (Nat.lt_succ_self _)
      have hd' : d ≠ '\n' := by intro hh; subst hh; exact absurd hd (by decide)
      by_cases hneg : n < 0
      · refine ⟨d, t ++ ['-'], ?_, hd'⟩
        simp [serVal, intChars, hneg, natChars, hdt]
      · refine ⟨d, t, ?_, hd'⟩
        simp [serVal, intChars, hneg, natChars, hdt]
  | str s =>
      refine ⟨'"', (escString s).reverse ++ ['"'], ?_, by decide⟩
      simp [serVal]
  | arr xs =>
      cases xs with
      | nil => exact ⟨']', _, rfl, by decide⟩
      | cons x xs =>
          refine ⟨']', (serVal x ++ serElemsRest xs).reverse ++ ['['], ?_, by decide⟩
          simp [serVal]
  | obj kvs =>
      cases kvs with
      | nil => exact ⟨'\x7d', _, rfl, by decide⟩
      | cons kv kvs =>
          refine ⟨'\x7d', (serMember kv ++ serMembersRest kvs).reverse ++ ['\x7b'], ?_,
            by decide⟩
          simp [serVal]

/-- Stripping the delimiter from a serialized frame recovers exactly the
serialized text. -/
theorem dropTrailingNewlines_serVal (v : Json) :
    dropTrailingNewlines (serVal v ++ ['\n']) = serVal v := by
  obtain ⟨c, t, hrev, hc⟩ := serVal_last v
  have h1 : (serVal v ++ ['\n']).reverse = '\n' :: (serVal v).reverse := by simp
  rw [dropTrailingNewlines, h1, hrev, List.dropWhile_cons, if_pos (by simp),
    List.dropWhile_cons, if_neg (by simp [hc]), ← hrev, List.reverse_reverse]

/-- UTF-8 length distributes over concatenation. -/
theorem utf8Len_append (a b : List Char) : utf8Len (a ++ b) = utf8Len a + utf8Len b := by
  induction a with
  | nil => simp [utf8Len]
  | cons c cs ih => simp [utf8Len, ih]; omega

/-- The escape function leaves runs of 'a' untouched. -/
theorem escString_replicate_a (n : Nat) :
    escString (List.replicate n 'a') = List.replicate n 'a' := by
  induction n with
  | zero => rfl
  | succ n ih =>
      have hea : escChar 'a' = ['a'] := rfl
      simp [List.replicate_succ, escString, hea, ih]

/-- A run of n copies of 'a' occupies n UTF-8 bytes. -/
theorem utf8Len_replicate_a (n : Nat) : utf8Len (List.replicate n 'a') = n := by
  induction n with
  | zero => rfl
  | succ n ih =>
      have h1 : ('a' : Char).utf8Size = 1 := rfl
      simp [List.replicate_succ, utf8Len, ih, h1]
      omega

mutual
/-- The fuel a value needs is dominated by the fuel `jparse` grants. -/
theorem fuelNeed_le : ∀ v : Json, fuelNeed v ≤ 2 * (serVal v).length
  | .null => by simp [fuelNeed, serVal]
  | .bool b => by cases b <;> simp [fuelNeed, serVal]
  | .num n => by
      obtain ⟨hne, -, -⟩ := natChars_spec n.natAbs
      have hlen : 1 ≤ (intChars n).length := by
        rw [intChars]
        split_ifs
        · simp
        · exact List.length_pos.mpr hne
      simp only [fuelNeed, serVal]
      omega
  | .str s => by simp [fuelNeed, serVal]; omega
  | .arr [] => by simp [fuelNeed, fuelElems, serVal]
  | .arr (x :: xs) => by
      have h1 := fuelNeed_le x
      have h2 := fuelElems_le xs
      simp only [fuelNeed, fuelElems, serVal, List.length_append, List.length_cons]
      omega
  | .obj [] => by simp [fuelNeed, fuelMembers, serVal]
  | .obj ((k, v) :: kvs) => by
      have h1 := fuelNeed_le v
      have h2 := fuelMembers_le kvs
      simp only [fuelNeed, fuelMembers, serVal, serMember, List.length_append,
        List.length_cons]
      omega

/-- Fuel bound for the serialized tail of an array. -/
theorem fuelElems_le : ∀ xs : List Json, fuelElems xs ≤ 2 * (serElemsRest xs).length + 1
  | [] => by simp [fuelElems, serElemsRest]
  | x :: xs => by
      have h1 := fuelNeed_le x
      have h2 := fuelElems_le xs
      simp only [fuelElems, serElemsRest, List.length_append, List.length_cons]
      omega

/-- Fuel bound for the serialized tail of an object. -/
theorem fuelMembers_le :
    ∀ kvs : List (List Char × Json), fuelMembers kvs ≤ 2 * (serMembersRest kvs).length + 1
  | [] => by simp [fuelMembers, serMembersRest]
  | (k, v) :: kvs => by
      have h1 := fuelNeed_le v
      have h2 := fuelMembers_le kvs
      simp only [fuelMembers, serMembersRest, serMember, List.length_append,
        List.length_cons]
      omega
end

/-- Round trip of the recursive-descent parser against the serializer:
with enough fuel, parsing a serialized value — and, for the tails of
arrays and objects, a serialized element or member list — consumes it
exactly and returns the original value. -/
theorem parse_ser_all :
    ∀ f : Nat,
      (∀ v rest, fuelNeed v ≤ f → noDigitStart rest →
        parseValF f (serVal v ++ rest) = some (v, rest)) ∧
      (∀ x xs rest, fuelElems (x :: xs) ≤ f →
        parseElemsF f (serVal x ++ (serElemsRest xs ++ ']' :: rest)) =
          some (x :: xs, rest)) ∧
      (∀ k v kvs rest, fuelMembers ((k, v) :: kvs) ≤ f →
        parseMembersF f (serMember (k, v) ++ (serMembersRest kvs ++ '\x7d' :: rest)) =
          some ((k, v) :: kvs, rest)) := by
  intro f
  induction f with
  | zero =>
      refine ⟨?_, ?_, ?_⟩
      · intro v rest hf _
        exact absurd (le_trans (fuelNeed_pos v) hf) (by omega)
      · intro x xs rest hf
        simp only [fuelElems] at hf
        omega
      · intro k v kvs rest hf
        simp only [fuelMembers] at hf
        omega
  | succ f0 ih =>
      obtain ⟨ihP, ihQ, ihR⟩ := ih
      refine ⟨?_, ?_, ?_⟩
      · intro v rest hf hrest
        cases v with
        | null =>
            have hsw : skipWs ('n' :: 'u' :: 'l' :: 'l' :: rest) =
                'n' :: 'u' :: 'l' :: 'l' :: rest := skipWs_cons _ (by decide)
            show parseValF (f0 + 1) ('n' :: 'u' :: 'l' :: 'l' :: rest) = some (.null, rest)
            simp [parseValF, hsw]
        | bool b =>
            cases b with
            | true =>
                have hsw : skipWs ('t' :: 'r' :: 'u' :: 'e' :: rest) =
                    't' :: 'r' :: 'u' :: 'e' :: rest := skipWs_cons _ (by decide)
                show parseValF (f0 + 1) ('t' :: 'r' :: 'u' :: 'e' :: rest) =
                  some (.bool true, rest)
                simp [parseValF, hsw]
            | false =>
                have hsw : skipWs ('f' :: 'a' :: 'l' :: 's' :: 'e' :: rest) =
                    'f' :: 'a' :: 'l' :: 's' :: 'e' :: rest := skipWs_cons _ (by decide)
                show parseValF (f0 + 1) ('f' :: 'a' :: 'l' :: 's' :: 'e' :: rest) =
                  some (.bool false, rest)
                simp [parseValF, hsw]
        | num n =>
            have hpn := parseNum_intChars n rest hrest
            by_cases hneg : n < 0
            · have hint2 : intChars n = '-' :: natChars n.natAbs := by
                simp [intChars, hneg]
              rw [show serVal (Json.num n) = intChars n from rfl, hint2]
              rw [hint2] at hpn
              simp only [List.cons_append] at hpn ⊢
              have hsw : skipWs ('-' :: (natChars n.natAbs ++ rest)) =
                  '-' :: (natChars n.natAbs ++ rest) := skipWs_cons _ (by decide)
              simp [parseValF, hsw, hpn]
            · have hint2 : intChars n = natChars n.natAbs := by
                simp [intChars, hneg]
              obtain ⟨hne, hdig, -⟩ := natChars_spec n.natAbs
              obtain ⟨c, t, hct⟩ : ∃ c t, natChars n.natAbs = c :: t := by
                cases hx : natChars n.natAbs with
                | nil => exact absurd hx hne
                | cons c t => exact ⟨c, t, rfl⟩
              have hcd : isDigitChar c = true :=
                hdig c (by rw [hct]; exact List.mem_cons_self c t)
              obtain ⟨hn', ht', hf', hq', hb', ho', hm', hw'⟩ := isDigitChar_class hcd
              rw [show serVal (Json.num n) = intChars n from rfl, hint2, hct]
              rw [hint2, hct] at hpn
              simp only [List.cons_append] at hpn ⊢
              have hsw : skipWs (c :: (t ++ rest)) = c :: (t ++ rest) := skipWs_cons _ hw'
              simp [parseValF, hsw, hn', ht', hf', hq', hb', ho', hpn]
        | str s =>
            obtain ⟨L, hL⟩ : ∃ L, escString s ++ '"' :: rest = L := ⟨_, rfl⟩
            have hlen : s.length < L.length + 1 := by
              rw [← hL]
              have := escString_length_ge s
              simp only [List.length_append, List.length_cons]
              omega
            have hps := parseStr_escString s (L.length + 1) rest hlen
            rw [hL] at hps
            have hsw : skipWs ('"' :: L) = '"' :: L := skipWs_cons _ (by decide)
            have hgoal : serVal (Json.str s) ++ rest = '"' :: L := by
              rw [← hL]; simp [serVal]
            rw [hgoal]
            simp [parseValF, hsw, hps]
        | arr xs =>
            cases xs with
            | nil =>
                have hsw : skipWs ('[' :: ']' :: rest) = '[' :: ']' :: rest :=
                  skipWs_cons _ (by decide)
                have hsw2 : skipWs (']' :: rest) = ']' :: rest := skipWs_cons _ (by decide)
                show parseValF (f0 + 1) ('[' :: ']' :: rest) = some (.arr [], rest)
                simp [parseValF, hsw, hsw2]
            | cons x xs =>
                obtain ⟨c, t, hct, hw', hrb, -⟩ := serVal_head x
                have hfe : fuelElems (x :: xs) ≤ f0 := by
                  simp only [fuelNeed] at hf; omega
                have hq := ihQ x xs rest hfe
                rw [hct] at hq
                simp only [List.cons_append, List.append_assoc] at hq
                have hgoal : serVal (Json.arr (x :: xs)) ++ rest =
                    '[' :: (c :: (t ++ (serElemsRest xs ++ ']' :: rest))) := by
                  rw [show serVal (Json.arr (x :: xs)) =
                    ('[' :: (serVal x ++ serElemsRest xs)) ++ [']'] from rfl, hct]
                  simp
                rw [hgoal]
                have hwb : isWsChar '[' = false := by decide
                simp [parseValF, skipWs, hwb, hw', hrb, hq]
        | obj kvs =>
            cases kvs with
            | nil =>
                have hwb : isWsChar '\x7b' = false := by decide
                have hwd : isWsChar '\x7d' = false := by decide
                show parseValF (f0 + 1) ('\x7b' :: '\x7d' :: rest) = some (.obj [], rest)
                simp [parseValF, skipWs, hwb, hwd]
            | cons kv kvs =>
                obtain ⟨k, v⟩ := kv
                have hfm : fuelMembers ((k, v) :: kvs) ≤ f0 := by
                  simp only [fuelNeed] at hf; omega
                have hr := ihR k v kvs rest hfm
                have hgoal : serVal (Json.obj ((k, v) :: kvs)) ++ rest =
                    '\x7b' :: (serMember (k, v) ++ (serMembersRest kvs ++ '\x7d' :: rest)) := by
                  rw [show serVal (Json.obj ((k, v) :: kvs)) =
                    ('\x7b' :: (serMember (k, v) ++ serMembersRest kvs)) ++ ['\x7d'] from rfl]
                  simp
                rw [hgoal]
                simp only [serMember, List.cons_append, List.append_assoc] at hr ⊢
                have hwb : isWsChar '\x7b' = false := by decide
                have hwq : isWsChar '"' = false := by decide
                simp [parseValF, skipWs, hwb, hwq, hr]
      · intro x xs rest hfe
        have hfx : fuelNeed x ≤ f0 := by simp only [fuelElems] at hfe; omega
        have hP := ihP x (serElemsRest xs ++ ']' :: rest) hfx
          (noDigitStart_serElemsRest xs rest)
        simp only [parseElemsF]
        rw [hP]
        cases xs with
        | nil =>
            have hsw : skipWs (serElemsRest [] ++ ']' :: rest) = ']' :: rest := by
              rw [show serElemsRest [] ++ ']' :: rest = ']' :: rest from rfl]
              exact skipWs_cons _ (by decide)
            simp [hsw]
        | cons y ys =>
            have hfyy : fuelElems (y :: ys) ≤ f0 := by
              simp only [fuelElems] at hfe ⊢; omega
            have hQ := ihQ y ys rest hfyy
            have hsw : skipWs (serElemsRest (y :: ys) ++ ']' :: rest) =
                ',' :: (serVal y ++ (serElemsRest ys ++ ']' :: rest)) := by
              rw [show serElemsRest (y :: ys) ++ ']' :: rest =
                ',' :: (serVal y ++ (serElemsRest ys ++ ']' :: rest)) from by
                  simp [serElemsRest]]
              exact skipWs_cons _ (by decide)
            simp [hsw, hQ]
      · intro k v kvs rest hfm
        have hfv : fuelNeed v ≤ f0 := by simp only [fuelMembers] at hfm; omega
        have hP := ihP v (serMembersRest kvs ++ '\x7d' :: rest) hfv
          (noDigitStart_serMembersRest kvs rest)
        obtain ⟨L, hL⟩ :
            ∃ L, ':' :: (serVal v ++ (serMembersRest kvs ++ '\x7d' :: rest)) = L := ⟨_, rfl⟩
        have hlen : k.length < (escString k ++ '"' :: L).length + 1 := by
          have := escString_length_ge k
          simp only [List.length_append, List.length_cons]
          omega
        have hps := parseStr_escString k ((escString k ++ '"' :: L).length + 1) L hlen
        have hgoal : serMember (k, v) ++ (serMembersRest kvs ++ '\x7d' :: rest) =
            '"' :: (escString k ++ '"' :: L) := by
          rw [← hL]; simp [serMember]
        rw [hgoal]
        have hwq : isWsChar '"' = false := by decide
        have hswL : skipWs L = ':' :: (serVal v ++ (serMembersRest kvs ++ '\x7d' :: rest)) := by
          rw [← hL]; exact skipWs_cons _ (by decide)
        simp only [parseMembersF]
        rw [skipWs_cons _ hwq]
        dsimp only
        rw [if_pos (show ('"' : Char) = '"' from rfl), hps]
        dsimp only
        rw [hswL]
        dsimp only
        rw [if_pos (show (':' : Char) = ':' from rfl), hP]
        dsimp only
        cases kvs with
        | nil =>
            have hsw3 : skipWs (serMembersRest [] ++ '\x7d' :: rest) = '\x7d' :: rest :=
              skipWs_cons _ (by decide)
            rw [hsw3]
            dsimp only
            rw [if_pos (show ('\x7d' : Char) = '\x7d' from rfl)]
        | cons kv2 kvs2 =>
            obtain ⟨k2, v2⟩ := kv2
            have hfm2 : fuelMembers ((k2, v2) :: kvs2) ≤ f0 := by
              simp only [fuelMembers] at hfm ⊢; omega
            have hR2 := ihR k2 v2 kvs2 rest hfm2
            have hexp : serMembersRest ((k2, v2) :: kvs2) ++ '\x7d' :: rest =
                ',' :: (serMember (k2, v2) ++ (serMembersRest kvs2 ++ '\x7d' :: rest)) := by
              simp [serMembersRest]
            have hsw3 : skipWs (serMembersRest ((k2, v2) :: kvs2) ++ '\x7d' :: rest) =
                ',' :: (serMember (k2, v2) ++ (serMembersRest kvs2 ++ '\x7d' :: rest)) := by
              rw [hexp]; exact skipWs_cons _ (by decide)
            rw [hsw3]
            dsimp only
            rw [if_neg (show ¬(',' : Char) = '\x7d' from by decide),
              if_pos (show (',' : Char) = ',' from rfl), hR2]

/-- Parsing a complete serialized document restores the value. -/
theorem jparse_serVal (v : Json) : jparse (serVal v) = some v := by
  have hp := (parse_ser_all (2 * (serVal v).length + 2)).1 v []
    (le_trans (fuelNeed_le v) (by omega)) trivial
  rw [List.append_nil] at hp
  simp only [jparse, hp]
  simp [skipWs]

/-- Decoding a serialized frame restores the message. -/
theorem decode_serVal (v : Json) : decode_msg (serVal v ++ ['\n']) = Except.ok v := by
  simp only [decode_msg, dropTrailingNewlines_serVal, jparse_serVal]

/-- C8: for every envelope that `encode_msg` accepts, decoding the
produced frame restores the envelope, and re-encoding the decoded
envelope reproduces the frame byte for byte.  (The claim's other
direction — that `encode_msg ∘ decode_msg` restores *every* valid
frame — is refuted by `codec_frame_roundtrip_cex`: a frame with
interior whitespace decodes fine but is not reproduced.) -/
theorem codec_roundtrips (m : Json) (f : List Char) (h : encode_msg m = Except.ok f) :
    decode_msg f = Except.ok m ∧
    (decode_msg f).bind (fun v => encode_msg v) = Except.ok f := by
  simp only [encode_msg] at h
  by_cases hsz : MAX_PAYLOAD_SIZE < utf8Len (serVal m)
  · rw [if_pos hsz] at h
    exact absurd h (by simp)
  · rw [if_neg hsz] at h
    simp only [Except.ok.injEq] at h
    subst h
    refine ⟨decode_serVal m, ?_⟩
    rw [decode_serVal m]
    show encode_msg m = Except.ok (serVal m ++ ['\n'])
    simp [encode_msg, hsz]

/-- C8 witness: the empty-object envelope round-trips concretely. -/
theorem codec_roundtrips_witness :
    decode_msg ['\x7b', '\x7d', '\n'] = Except.ok (Json.obj []) ∧
    (decode_msg ['\x7b', '\x7d', '\n']).bind (fun v => encode_msg v) =
      Except.ok ['\x7b', '\x7d', '\n'] :=
  codec_roundtrips (Json.obj []) ['\x7b', '\x7d', '\n'] rfl

/-- C8 counterexample: the frame "\x7b \x7d\n" — an interior space —
is a valid frame (it decodes to the empty object), but re-encoding its
decoding yields the compact frame "\x7b\x7d\n", not the original
bytes, so `encode(decode(f)) = f` fails for valid frames in general. -/
theorem codec_frame_roundtrip_cex :
    decode_msg ['\x7b', ' ', '\x7d', '\n'] = Except.ok (Json.obj []) ∧
    (decode_msg ['\x7b', ' ', '\x7d', '\n']).bind (fun v => encode_msg v) =
      Except.ok ['\x7b', '\x7d', '\n'] ∧
    (['\x7b', '\x7d', '\n'] : List Char) ≠ ['\x7b', ' ', '\x7d', '\n'] :=
  ⟨rfl, rfl, by decide⟩

/-- Unfolding lemma for `utf8Len` on a cons cell. -/
theorem utf8Len_cons (c : Char) (cs : List Char) :
    utf8Len (c :: cs) = c.utf8Size + utf8Len cs := by
  simp [utf8Len]

/-- The serialized oversize probe occupies `MAX_PAYLOAD_SIZE + 2` UTF-8 bytes. -/
theorem utf8Len_bigStr :
    utf8Len (serVal (Json.str (List.replicate MAX_PAYLOAD_SIZE 'a'))) =
      MAX_PAYLOAD_SIZE + 2 := by
  have h1 : ('"' : Char).utf8Size = 1 := rfl
  have h2 : utf8Len ['"'] = 1 := rfl
  rw [show serVal (Json.str (List.replicate MAX_PAYLOAD_SIZE 'a')) =
    '"' :: (escString (List.replicate MAX_PAYLOAD_SIZE 'a') ++ ['"']) from rfl,
    escString_replicate_a, utf8Len_cons, h1, utf8Len_append, utf8Len_replicate_a, h2]
  omega

/-- C9: encoding enforces the 256 KiB bound — an envelope whose JSON
text exceeds `MAX_PAYLOAD_SIZE` UTF-8 bytes fails with `BAD_REQUEST`
(400) and one within the bound is framed — but the decode path applies
no size check: every serialized frame decodes successfully regardless
of size (see `inbound_oversize_cex` for an oversized instance). -/
theorem encode_size_gate (m : Json) :
    (MAX_PAYLOAD_SIZE < utf8Len (serVal m) →
      encode_msg m = Except.error ⟨400, none⟩) ∧
    (utf8Len (serVal m) ≤ MAX_PAYLOAD_SIZE →
      encode_msg m = Except.ok (serVal m ++ ['\n'])) ∧
    decode_msg (serVal m ++ ['\n']) = Except.ok m := by
  refine ⟨?_, ?_, decode_serVal m⟩
  · intro h
    simp [encode_msg, h]
  · intro h
    have h' : ¬ MAX_PAYLOAD_SIZE < utf8Len (serVal m) := not_lt.mpr h
    simp [encode_msg, h']

/-- C9 witness: a tiny envelope is framed, the oversize probe is
rejected with status 400, and the decoder accepts a small frame. -/
theorem encode_size_gate_witness :
    encode_msg Json.null = Except.ok (serVal Json.null ++ ['\n']) ∧
    encode_msg (Json.str (List.replicate MAX_PAYLOAD_SIZE 'a')) =
      Except.error ⟨400, none⟩ ∧
    decode_msg (serVal Json.null ++ ['\n']) = Except.ok Json.null :=
  ⟨(encode_size_gate Json.null).2.1 (by decide),
   (encode_size_gate (Json.str (List.replicate MAX_PAYLOAD_SIZE 'a'))).1
     (by rw [utf8Len_bigStr]; omega),
   (encode_size_gate Json.null).2.2⟩

/-- C9 counterexample: an inbound frame of `MAX_PAYLOAD_SIZE + 2` UTF-8
bytes — one `encode_msg` itself would reject — is decoded successfully:
the inbound path performs no size check and raises no `BAD_REQUEST`. -/
theorem inbound_oversize_cex :
    MAX_PAYLOAD_SIZE <
      utf8Len (serVal (Json.str (List.replicate MAX_PAYLOAD_SIZE 'a'))) ∧
    decode_msg (serVal (Json.str (List.replicate MAX_PAYLOAD_SIZE 'a')) ++ ['\n']) =
      Except.ok (Json.str (List.replicate MAX_PAYLOAD_SIZE 'a')) ∧
    encode_msg (Json.str (List.replicate MAX_PAYLOAD_SIZE 'a')) =
      Except.error ⟨400, none⟩ := by
  have hbig : MAX_PAYLOAD_SIZE <
      utf8Len (serVal (Json.str (List.replicate MAX_PAYLOAD_SIZE 'a'))) := by
    rw [utf8Len_bigStr]; omega
  refine ⟨hbig, decode_serVal _, ?_⟩
  simp [encode_msg, hbig]

end ChatSpec
